import Mathlib

set_option maxHeartbeats 1000000

/-!
Shallow embedding of `src/gemstone/common/configurable.py` (class `Configurable`
together with the helpers it calls).

The Python class keeps, per instance:
  `__register_cache`     : dict  name -> width            (declaration order)
  `registers`            : DotDict name -> SliceWrapper
  `__registers`          : list of created config registers
  `__register_map`       : dict  name -> (idx, lo, hi)
  `read_config_data_mux` : the read-back mux (`None` until created)

Python dicts are modelled as association lists in insertion order; raised
exceptions are modelled with `Except` (state mutated before a raise is not
observable to a caller that sees the exception, so an error result carries no
state).  Machine integers do not occur: all Python ints here are nonnegative,
modelled as `Nat`.
-/

/-- Failure modes of the embedded code.  Each constructor names the concrete
Python exception it models:
`alreadyRegistered` is the `ValueError` raised in `add_config`;
`indexError` is `working_set[-1]` on an empty list in `__create_register`;
`widthAssert` is the `assert reg_width <= self.config_data_width` there;
`keyError` is a dict lookup miss (`__register_map[name]`, `__register_cache[...]`);
`overflowAssert` is the `assert value < (1 << width)` in `get_config_data`;
`duplicatePortI` and `wireWidthMismatch` belong to the spec-modelled backend
(see `addPortI` and `wireWidths`). -/
inductive CError
  | alreadyRegistered
  | indexError
  | widthAssert
  | keyError
  | overflowAssert
  | duplicatePortI
  | wireWidthMismatch
  deriving DecidableEq, Repr

/-- State of a `SliceWrapper` as `configurable.py` uses it: `add_config` creates
`SliceWrapper(self.config_data_width, 0, width, name=name)` and pops its input
port `I` (`hasI = false`); `__create_register` later overwrites `base_width`,
`lo`, `hi` and re-adds port `I`. -/
structure SliceW where
  baseWidth : Nat
  lo : Nat
  hi : Nat
  hasI : Bool
  deriving DecidableEq, Repr

/-- One packed configuration register: `index` is its position in
`self.__registers` (also its address on the config bus), `width` is the
`reg_width` handed to `ConfigRegister`, and `members` is the working set
`(name, lo, hi)` it was created from. -/
structure RegBin where
  index : Nat
  width : Nat
  members : List (String × Nat × Nat)
  deriving DecidableEq, Repr

/-- A wiring-plan handle: a config register output `O`, or the output of a
zero-extender driven by such a handle. -/
inductive Port
  | regO (idx width : Nat)
  | zextO (inner : Port) (toWidth : Nat)
  deriving DecidableEq, Repr

/-- What `_setup_config` (lines 163-188) wires onto `read_config_data`. -/
inductive ReadbackPlan
  | unconnected
  | direct (p : Port)
  | mux (selBits : Nat) (inputs : List Port)
  deriving DecidableEq, Repr

/-- Instance state of `Configurable`. -/
structure CState where
  configAddrWidth : Nat
  configDataWidth : Nat
  registerCache : List (String × Nat)
  sliceWrappers : List (String × SliceW)
  registers : List RegBin
  registerMap : List (String × Nat × Nat × Nat)
  readbackPlan : Option ReadbackPlan
  deriving DecidableEq, Repr

/-- First-match association-list lookup (a Python dict read). -/
def lookupW {α : Type} : List (String × α) → String → Option α
  | [], _ => none
  | (k, v) :: rest, n => if n = k then some v else lookupW rest n

/-- Replace the value of an existing key, keeping its position. -/
def updateW {α : Type} : List (String × α) → String → α → List (String × α)
  | [], _, _ => []
  | (k, v) :: rest, n, v' =>
    if n = k then (k, v') :: rest else (k, v) :: updateW rest n v'

/-- A Python dict write: update in place when the key is present, append
otherwise. -/
def insertW {α : Type} (l : List (String × α)) (n : String) (v : α) :
    List (String × α) :=
  if (lookupW l n).isSome then updateW l n v else l ++ [(n, v)]

/-- `Configurable.__init__(config_addr_width, config_data_width)`. -/
def initState (aw dw : Nat) : CState :=
  { configAddrWidth := aw
    configDataWidth := dw
    registerCache := []
    sliceWrappers := []
    registers := []
    registerMap := []
    readbackPlan := none }

/-- `Configurable.add_config(name, width)` (lines 73-87): raise `ValueError` if
`name in self.registers`, otherwise record the width in `__register_cache` and
store a `SliceWrapper(config_data_width, 0, width)` with its port `I` popped. -/
def addConfig (st : CState) (name : String) (width : Nat) :
    Except CError CState :=
  if (lookupW st.sliceWrappers name).isSome then .error .alreadyRegistered
  else
    .ok { st with
      registerCache := st.registerCache ++ [(name, width)]
      sliceWrappers :=
        st.sliceWrappers ++ [(name, ⟨st.configDataWidth, 0, width, false⟩)] }

/-- `Configurable.add_configs(**kwargs)` (lines 89-91): `add_config` applied to
each entry in iteration order. -/
def addConfigs : CState → List (String × Nat) → Except CError CState
  | st, [] => .ok st
  | st, (n, w) :: rest =>
    match addConfig st n w with
    | .error e => .error e
    | .ok st' => addConfigs st' rest

/-- `Configurable.get_reg_info(name)` (lines 93-94): `self.__register_map[name]`. -/
def getRegInfo (st : CState) (name : String) : Except CError (Nat × Nat × Nat) :=
  match lookupW st.registerMap name with
  | none => .error .keyError
  | some t => .ok t

/-- `Configurable.get_reg_idx(name)` (lines 133-134): `self.__register_map[name][0]`. -/
def getRegIdx (st : CState) (name : String) : Except CError Nat :=
  match lookupW st.registerMap name with
  | none => .error .keyError
  | some t => .ok t.1

/-- `Configurable.get_config_data(name, value)` (lines 127-131): look the name
up in `__register_map`, assert `value < (1 << width)`, return
`(idx, value << lo)`. -/
def getConfigData (st : CState) (name : String) (value : Nat) :
    Except CError (Nat × Nat) :=
  match lookupW st.registerMap name with
  | none => .error .keyError
  | some (idx, lo, hi) =>
    if value < 2 ^ (hi - lo) then .ok (idx, value * 2 ^ lo)
    else .error .overflowAssert

/-- Modelled from the spec: `Generator.add_ports`
(`gemstone/generator/generator.py`, a file of this repository that is not under
`src/`) is called by `__create_register` to re-add the port `I` that
`add_config` popped.  Section 5 of the spec requires a second finalize to fail
deterministically rather than silently re-packing, and re-adding an
already-present port is the step where that surfaces; the port addition is
therefore modelled as failing when the port is already present. -/
def addPortI (sw : SliceW) : Except CError SliceW :=
  if sw.hasI then .error .duplicatePortI else .ok { sw with hasI := true }

/-- The member loop of `Configurable.__create_register` (lines 114-123): for
each `(name, lo, hi)` of the working set, fetch `self.registers[name]`, reset
its `base_width`/`lo`/`hi`, re-add its port `I`, wire it to the register output
(no observable state here), and write `(idx, lo, hi)` into `__register_map`. -/
def membersLoop (idx regWidth : Nat) :
    CState → List (String × Nat × Nat) → Except CError CState
  | st, [] => .ok st
  | st, (name, lo, hi) :: rest =>
    match lookupW st.sliceWrappers name with
    | none => .error .keyError
    | some sw =>
      match addPortI { sw with baseWidth := regWidth, lo := lo, hi := hi } with
      | .error e => .error e
      | .ok sw' =>
        membersLoop idx regWidth
          { st with
            sliceWrappers := updateW st.sliceWrappers name sw'
            registerMap := insertW st.registerMap name (idx, lo, hi) } rest

/-- `Configurable.__create_register(working_set)` (lines 96-125):
`reg_width = working_set[-1][-1]` (an `IndexError` on an empty working set),
assert `reg_width <= config_data_width`, create `ConfigRegister` number
`idx = len(self.__registers)` and append it, then run the member loop.  The
config-bus wiring of the new register has no observable allocator state. -/
def createRegister (st : CState) (ws : List (String × Nat × Nat)) :
    Except CError CState :=
  match ws.getLast? with
  | none => .error .indexError
  | some m =>
    let regWidth := m.2.2
    if regWidth ≤ st.configDataWidth then
      let idx := st.registers.length
      membersLoop idx regWidth
        { st with registers := st.registers ++ [⟨idx, regWidth, ws⟩] } ws
    else .error .widthAssert

/-- The packing loop of `Configurable._setup_config` (lines 142-161): for each
sorted name, look its width up in `__register_cache`; if
`reg_width + reg_addr_offset > config_data_width` close the working set via
`__create_register` and reset the offset; then append
`(name, offset, offset + width)` and advance the offset.  After the loop a
non-empty working set is closed as the final register. -/
def packLoop : CState → List String → Nat → List (String × Nat × Nat) →
    Except CError CState
  | st, [], _, ws => if ws.isEmpty then .ok st else createRegister st ws
  | st, n :: rest, offset, ws =>
    match lookupW st.registerCache n with
    | none => .error .keyError
    | some w =>
      if st.configDataWidth < w + offset then
        match createRegister st ws with
        | .error e => .error e
        | .ok st' => packLoop st' rest w [(n, 0, w)]
      else
        packLoop st rest (offset + w) (ws ++ [(n, offset, offset + w)])

/-- Decidability of `≤` on `String` through the character lists, so that the
kernel can evaluate concrete sorts (the builtin instance goes through the
iterator-based `String.ltb`, which does not reduce). -/
instance (priority := 2000) strLeDec :
    DecidableRel (fun a b : String => a ≤ b) := fun a b =>
  decidable_of_iff (a.toList ≤ b.toList) String.le_iff_toList_le.symm

/-- Equality of `Except` values is decidable componentwise. -/
instance exceptDecEq {ε α : Type} [DecidableEq ε] [DecidableEq α] :
    DecidableEq (Except ε α) := fun x y =>
  match x, y with
  | .error u, .error v =>
    if h : u = v then isTrue (congrArg Except.error h)
    else isFalse fun c => h (Except.error.inj c)
  | .ok u, .ok v =>
    if h : u = v then isTrue (congrArg Except.ok h)
    else isFalse fun c => h (Except.ok.inj c)
  | .error _, .ok _ => isFalse fun c => Except.noConfusion c
  | .ok _, .error _ => isFalse fun c => Except.noConfusion c

/-- `config_names = list(self.__register_cache.keys()); config_names.sort()`:
Python sorts strings lexicographically by code point, which is the `≤` of
`LinearOrder String`. -/
def sortNames (l : List String) : List String :=
  List.insertionSort (fun a b : String => a ≤ b) l

/-- Fuel-based ceiling base-2 logarithm (structural recursion, so the kernel
can evaluate it; `muxSelBits_eq_clog` below identifies it with `Nat.clog 2`). -/
def clog2F : Nat → Nat → Nat
  | 0, _ => 0
  | fuel + 1, n => if n ≤ 1 then 0 else clog2F fuel ((n + 1) / 2) + 1

/-- Modelled from the spec: `MuxWrapper`
(`gemstone/common/mux_wrapper.py`, a file of this repository that is not under
`src/`) exposes `sel_bits` for a mux of `n` inputs; section 4.4 of the spec
fixes it to `ceil(log2(n))`, i.e. `Nat.clog 2 n` (see `muxSelBits_eq_clog`). -/
def muxSelBits (n : Nat) : Nat := clog2F n n

/-- Modelled from the spec: `Generator.wire`
(`gemstone/generator/generator.py`, a file of this repository that is not under
`src/`) connects `config_addr[:sel_bits]` (the Python slice of the
`config_addr_width`-wide address, of width `min sel_bits config_addr_width`) to
the mux select input of width `sel_bits`; section 4.4 requires the two widths
to agree exactly and the connection to fail with an internal-consistency error
otherwise, so the wire is modelled as failing when the widths differ. -/
def wireWidths (a b : Nat) : Except CError Unit :=
  if a = b then .ok () else .error .wireWidthMismatch

/-- The inner `_zext` helper of `_setup_config` (lines 163-168): return the
port unchanged when the widths agree, otherwise interpose a `ZextWrapper`. -/
def zextPort (p : Port) (oldW newW : Nat) : Port :=
  if oldW = newW then p else .zextO p newW

/-- The read-back section of `_setup_config` (lines 170-188): with
`N = len(self.__registers)`, build a mux over the zero-extended register
outputs when `N > 1` (selecting on `config_addr[:sel_bits]`), wire the single
zero-extended output directly when `N == 1`, and leave `read_config_data`
unconnected when `N == 0`. -/
def setupReadback (regs : List RegBin) (aw dw : Nat) :
    Except CError ReadbackPlan :=
  if 1 < regs.length then
    let selBits := muxSelBits regs.length
    match wireWidths (min selBits aw) selBits with
    | .error e => .error e
    | .ok _ =>
      .ok (.mux selBits
        (regs.map fun r => zextPort (.regO r.index r.width) r.width dw))
  else
    match regs with
    | [r] => .ok (.direct (zextPort (.regO r.index r.width) r.width dw))
    | _ => .ok .unconnected

/-- `Configurable._setup_config()` (lines 136-188): run the packing loop over
the sorted cache keys, then synthesize the read-back network. -/
def setupConfig (st : CState) : Except CError CState :=
  match packLoop st (sortNames (st.registerCache.map Prod.fst)) 0 [] with
  | .error e => .error e
  | .ok st' =>
    match setupReadback st'.registers st'.configAddrWidth st'.configDataWidth with
    | .error e => .error e
    | .ok plan => .ok { st' with readbackPlan := some plan }

/-- `working_set[-1][-1]` as a total function: the `hi` of the last member,
`0` for an empty working set. -/
def lastHi (ws : List (String × Nat × Nat)) : Nat :=
  ((ws.getLast?).map fun m => m.2.2).getD 0

/-- The bin a close emits: index `number of bins emitted so far`, width `last
member's hi`, members the working set. -/
def mkBin (idx : Nat) (ws : List (String × Nat × Nat)) : RegBin :=
  ⟨idx, lastHi ws, ws⟩

/-- The `__register_map` entries contributed by a list of bins, in creation
order. -/
def binsMap (bins : List RegBin) : List (String × Nat × Nat × Nat) :=
  (bins.map fun b => b.members.map fun m => (m.1, b.index, m.2.1, m.2.2)).flatten

/-- All members of a list of bins, in creation order. -/
def membersJoin (bins : List RegBin) : List (String × Nat × Nat) :=
  (bins.map fun b => b.members).flatten

/-- Contiguous-chain check: starting at `off`, each member has `lo` equal to
the running position and `lo ≤ hi`, the next member starting at `hi`. -/
def chainB : Nat → List (String × Nat × Nat) → Bool
  | _, [] => true
  | off, (_, lo, hi) :: rest => decide (lo = off) && decide (lo ≤ hi) && chainB hi rest

/-- The declared fields in the order of a given name list, widths read from the
cache. -/
def fieldsOf (names : List String) (cache : List (String × Nat)) :
    List (String × Nat) :=
  names.map fun n => (n, (lookupW cache n).getD 0)

/-- The declared `(name, width)` pairs in lexicographic name order. -/
def sortedFieldsOf (l : List (String × Nat)) : List (String × Nat) :=
  fieldsOf (sortNames (l.map Prod.fst)) l

/-- Spec-side packing step, written from the wording of spec section 4.2 and
claim C1 (for the refinement claim C1, to be compared with `packLoop`): keep a
running offset; append a field to the current bin at
`[offset, offset + width)` when `offset + width ≤ config_data_width`, and
otherwise close the current bin (index = bins emitted so far, width = last
member's `hi`) and start the field in a new bin at offset `0`; after the loop
close a non-empty working set as the final bin. -/
def specPackLoop (dw : Nat) :
    List (String × Nat) → Nat → List (String × Nat × Nat) → List RegBin →
    List RegBin
  | [], _, ws, bins => if ws.isEmpty then bins else bins ++ [mkBin bins.length ws]
  | (n, w) :: rest, offset, ws, bins =>
    if offset + w ≤ dw then
      specPackLoop dw rest (offset + w) (ws ++ [(n, offset, offset + w)]) bins
    else
      specPackLoop dw rest w [(n, 0, w)] (bins ++ [mkBin bins.length ws])

/-- Spec-side packing of a field list (spec section 4.2 steps 2-4). -/
def specPack (dw : Nat) (fields : List (String × Nat)) : List RegBin :=
  specPackLoop dw fields 0 [] []

/-- The slice wrappers `add_config` creates for a list of declarations. -/
def wrappersOf (dw : Nat) (l : List (String × Nat)) : List (String × SliceW) :=
  l.map fun p => (p.1, ⟨dw, 0, p.2, false⟩)

/-- Observational equivalence of two allocator states: the packing and
read-back code cannot distinguish them (it reads the caches and wrappers only
through `lookupW`). -/
def StEquiv (s t : CState) : Prop :=
  s.configAddrWidth = t.configAddrWidth ∧
  s.configDataWidth = t.configDataWidth ∧
  s.registers = t.registers ∧
  s.registerMap = t.registerMap ∧
  (∀ n, lookupW s.registerCache n = lookupW t.registerCache n) ∧
  (∀ n, lookupW s.sliceWrappers n = lookupW t.sliceWrappers n)

/-! ### Basic lemmas: `clog2F`, sorting, association lists -/

theorem clog2F_eq_clog : ∀ fuel n, n ≤ fuel → clog2F fuel n = Nat.clog 2 n := by
  intro fuel
  induction fuel with
  | zero =>
    intro n hn
    have h0 : n = 0 := by omega
    subst h0
    simp [clog2F, Nat.clog_of_right_le_one]
  | succ f ih =>
    intro n hn
    by_cases h1 : n ≤ 1
    · simp [clog2F, h1, Nat.clog_of_right_le_one h1]
    · have h2 : 2 ≤ n := by omega
      have e1 : n + 2 - 1 = n + 1 := by omega
      rw [clog2F, if_neg h1, ih ((n + 1) / 2) (by omega),
        Nat.clog_of_two_le (by norm_num) h2, e1]

theorem muxSelBits_eq_clog (n : Nat) : muxSelBits n = Nat.clog 2 n :=
  clog2F_eq_clog n n le_rfl

theorem sortNames_perm (l : List String) : (sortNames l).Perm l :=
  List.perm_insertionSort _ l

theorem sortNames_sorted (l : List String) :
    (sortNames l).Sorted (fun a b : String => a ≤ b) := by
  haveI : IsTotal String (fun a b : String => a ≤ b) := ⟨le_total⟩
  haveI : IsTrans String (fun a b : String => a ≤ b) := ⟨fun _ _ _ => le_trans⟩
  exact List.sorted_insertionSort _ l

theorem sortNames_eq_of_perm {l₁ l₂ : List String} (p : l₁.Perm l₂) :
    sortNames l₁ = sortNames l₂ := by
  haveI : IsAntisymm String (fun a b : String => a ≤ b) := ⟨fun _ _ => le_antisymm⟩
  exact List.eq_of_perm_of_sorted
    ((sortNames_perm l₁).trans (p.trans (sortNames_perm l₂).symm))
    (sortNames_sorted l₁) (sortNames_sorted l₂)

theorem sortNames_mem {l : List String} {n : String} : n ∈ sortNames l ↔ n ∈ l :=
  (sortNames_perm l).mem_iff

theorem sortNames_nodup {l : List String} (h : l.Nodup) : (sortNames l).Nodup :=
  (sortNames_perm l).nodup_iff.mpr h

theorem sortNames_eq_nil {l : List String} (h : sortNames l = []) : l = [] :=
  List.Perm.eq_nil (h ▸ sortNames_perm l).symm

theorem lookupW_isSome_iff {α : Type} (l : List (String × α)) (n : String) :
    (lookupW l n).isSome ↔ n ∈ l.map Prod.fst := by
  induction l with
  | nil => simp [lookupW]
  | cons p rest ih =>
    obtain ⟨k, v⟩ := p
    by_cases h : n = k <;> simp [lookupW, h, ih]

theorem lookupW_eq_none_iff {α : Type} (l : List (String × α)) (n : String) :
    lookupW l n = none ↔ n ∉ l.map Prod.fst := by
  rw [← lookupW_isSome_iff, Option.not_isSome_iff_eq_none]

theorem lookupW_append_some {α : Type} {l₁ : List (String × α)} {n : String}
    {v : α} (h : lookupW l₁ n = some v) (l₂ : List (String × α)) :
    lookupW (l₁ ++ l₂) n = some v := by
  induction l₁ with
  | nil => simp [lookupW] at h
  | cons p rest ih =>
    obtain ⟨k, w⟩ := p
    by_cases hk : n = k <;> simp_all [lookupW, hk]

theorem lookupW_append_none {α : Type} {l₁ : List (String × α)} {n : String}
    (h : lookupW l₁ n = none) (l₂ : List (String × α)) :
    lookupW (l₁ ++ l₂) n = lookupW l₂ n := by
  induction l₁ with
  | nil => simp [lookupW]
  | cons p rest ih =>
    obtain ⟨k, w⟩ := p
    by_cases hk : n = k <;> simp_all [lookupW, hk]

theorem lookupW_of_mem_nodup {α : Type} {l : List (String × α)} {n : String}
    {v : α} (nd : (l.map Prod.fst).Nodup) (h : (n, v) ∈ l) :
    lookupW l n = some v := by
  induction l with
  | nil => simp at h
  | cons p rest ih =>
    obtain ⟨k, w⟩ := p
    simp only [List.map_cons, List.nodup_cons] at nd
    rcases List.mem_cons.mp h with h' | h'
    · obtain ⟨e1, e2⟩ := Prod.mk.injEq .. ▸ h'
      simp [lookupW, e1.symm, e2]
    · have hnk : n ≠ k := by
        intro e
        exact nd.1 (e ▸ (List.mem_map.mpr ⟨(n, v), h', rfl⟩))
      simp [lookupW, hnk, ih nd.2 h']

theorem lookupW_updateW {α : Type} (l : List (String × α)) (n x : String)
    (v : α) :
    lookupW (updateW l n v) x =
      if x = n then (lookupW l n).map (fun _ => v) else lookupW l x := by
  induction l with
  | nil => by_cases h : x = n <;> simp [updateW, lookupW, h]
  | cons p rest ih =>
    obtain ⟨k, w⟩ := p
    by_cases hn : n = k
    · subst hn
      by_cases hx : x = n <;> simp [updateW, lookupW, hx]
    · by_cases hx : x = k
      · subst hx
        have : ¬x = n := fun e => hn e.symm
        simp [updateW, hn, lookupW, this]
      · simp [updateW, hn, lookupW, hx, ih]

theorem insertW_fresh {α : Type} {l : List (String × α)} {n : String}
    (h : n ∉ l.map Prod.fst) (v : α) : insertW l n v = l ++ [(n, v)] := by
  rw [insertW, (lookupW_eq_none_iff l n).mpr h]
  rfl

theorem lookupW_perm {α : Type} {l₁ l₂ : List (String × α)} (p : l₁.Perm l₂)
    (nd : (l₁.map Prod.fst).Nodup) (n : String) :
    lookupW l₁ n = lookupW l₂ n := by
  induction p with
  | nil => rfl
  | cons x q ih =>
    obtain ⟨k, v⟩ := x
    simp only [List.map_cons, List.nodup_cons] at nd
    by_cases h : n = k <;> simp [lookupW, h, ih nd.2]
  | swap x y l =>
    obtain ⟨k₁, v₁⟩ := x
    obtain ⟨k₂, v₂⟩ := y
    simp only [List.map_cons, List.nodup_cons, List.mem_cons] at nd
    have hk : ¬k₂ = k₁ := fun e => nd.1 (Or.inl e)
    have hk' : ¬k₁ = k₂ := fun e => hk e.symm
    by_cases h1 : n = k₂
    · have h2 : ¬n = k₁ := fun e => hk (h1.symm.trans e)
      simp [lookupW, h1, h2, hk, hk']
    · by_cases h2 : n = k₁ <;> simp [lookupW, h1, h2, hk, hk']
  | trans p₁ p₂ ih₁ ih₂ =>
    rw [ih₁ nd, ih₂ ((p₁.map Prod.fst).nodup_iff.mp nd)]

/-! ### Declaration-phase characterization -/

theorem wrappersOf_keys (dw : Nat) (l : List (String × Nat)) :
    (wrappersOf dw l).map Prod.fst = l.map Prod.fst := by
  simp [wrappersOf, List.map_map]

theorem lookupW_wrappersOf (dw : Nat) (l : List (String × Nat)) (n : String) :
    lookupW (wrappersOf dw l) n =
      (lookupW l n).map fun w => ⟨dw, 0, w, false⟩ := by
  induction l with
  | nil => rfl
  | cons p rest ih =>
    obtain ⟨k, w⟩ := p
    by_cases h : n = k <;> simp [wrappersOf, lookupW, h] <;>
      simpa [wrappersOf] using ih

theorem addConfig_fresh {st : CState} {name : String}
    (h : lookupW st.sliceWrappers name = none) (width : Nat) :
    addConfig st name width =
      .ok { st with
        registerCache := st.registerCache ++ [(name, width)]
        sliceWrappers :=
          st.sliceWrappers ++ [(name, ⟨st.configDataWidth, 0, width, false⟩)] } := by
  simp [addConfig, h]

theorem addConfigs_ok_char :
    ∀ {l : List (String × Nat)} {st₀ st : CState},
      addConfigs st₀ l = .ok st →
      st.configAddrWidth = st₀.configAddrWidth ∧
      st.configDataWidth = st₀.configDataWidth ∧
      st.registerCache = st₀.registerCache ++ l ∧
      st.sliceWrappers = st₀.sliceWrappers ++ wrappersOf st₀.configDataWidth l ∧
      st.registers = st₀.registers ∧
      st.registerMap = st₀.registerMap ∧
      st.readbackPlan = st₀.readbackPlan ∧
      (l.map Prod.fst).Nodup ∧
      (∀ n ∈ l.map Prod.fst, n ∉ st₀.sliceWrappers.map Prod.fst) := by
  intro l
  induction l with
  | nil =>
    intro st₀ st h
    obtain rfl : st₀ = st := by simpa [addConfigs] using h
    simp [wrappersOf]
  | cons p rest ih =>
    intro st₀ st h
    obtain ⟨k, w⟩ := p
    rw [addConfigs] at h
    rcases hk : addConfig st₀ k w with e | st₁
    · rw [hk] at h; exact absurd h (by simp)
    · rw [hk] at h
      have hfresh : lookupW st₀.sliceWrappers k = none := by
        by_cases hs : (lookupW st₀.sliceWrappers k).isSome
        · rw [addConfig, if_pos hs] at hk; exact absurd hk (by simp)
        · exact Option.not_isSome_iff_eq_none.mp hs
      have hst₁ : st₁ =
          { st₀ with
            registerCache := st₀.registerCache ++ [(k, w)]
            sliceWrappers :=
              st₀.sliceWrappers ++ [(k, ⟨st₀.configDataWidth, 0, w, false⟩)] } := by
        have := addConfig_fresh hfresh w
        rw [this] at hk
        exact (Except.ok.inj hk).symm
      obtain ⟨haw, hdw, hcache, hwr, hregs, hmap, hplan, hnd, hdisj⟩ := ih h
      subst hst₁
      simp only at haw hdw hcache hwr hregs hmap hplan hdisj
      refine ⟨haw, hdw, ?_, ?_, hregs, hmap, hplan, ?_, ?_⟩
      · rw [hcache, List.append_assoc]
        rfl
      · rw [hwr, List.append_assoc]
        simp [wrappersOf]
      · refine List.nodup_cons.mpr ⟨?_, hnd⟩
        intro hm
        have := hdisj k hm
        simp [wrappersOf_keys] at this
      · intro n hn
        rcases List.mem_cons.mp hn with rfl | hn'
        · exact (lookupW_eq_none_iff _ _).mp hfresh
        · intro hmem
          exact hdisj n hn'
            (by rw [List.map_append]; exact List.mem_append_left _ hmem)

/-! ### Member-loop and register-creation characterization -/

theorem lastHi_of_getLast {ws : List (String × Nat × Nat)}
    {m : String × Nat × Nat} (h : ws.getLast? = some m) : lastHi ws = m.2.2 := by
  simp [lastHi, h]


theorem membersLoop_ok (idx rw : Nat) :
    ∀ (ws : List (String × Nat × Nat)) (st : CState),
      (∀ m ∈ ws,
        (∃ sw, lookupW st.sliceWrappers m.1 = some sw ∧ sw.hasI = false) ∧
          m.1 ∉ st.registerMap.map Prod.fst) →
      (ws.map Prod.fst).Nodup →
      ∃ st', membersLoop idx rw st ws = .ok st' ∧
        st'.registerMap =
          st.registerMap ++ ws.map (fun m => (m.1, idx, m.2.1, m.2.2)) ∧
        st'.registers = st.registers ∧
        st'.registerCache = st.registerCache ∧
        st'.configAddrWidth = st.configAddrWidth ∧
        st'.configDataWidth = st.configDataWidth ∧
        st'.readbackPlan = st.readbackPlan ∧
        (∀ n, n ∉ ws.map Prod.fst →
          lookupW st'.sliceWrappers n = lookupW st.sliceWrappers n) ∧
        (∀ n, n ∈ ws.map Prod.fst →
          ∃ sw, lookupW st'.sliceWrappers n = some sw ∧ sw.hasI = true) := by
  intro ws
  induction ws with
  | nil =>
    intro st _ _
    exact ⟨st, rfl, by simp, rfl, rfl, rfl, rfl, rfl,
      fun n _ => rfl, fun n hn => absurd hn (by simp)⟩
  | cons m rest ih =>
    intro st hfresh hnd
    obtain ⟨name, lo, hi⟩ := m
    have hhead := hfresh (name, lo, hi) (List.mem_cons_self _ _)
    obtain ⟨⟨sw, hsw₀, hswI⟩, hnotmap₀⟩ := hhead
    replace hsw : lookupW st.sliceWrappers name = some sw := hsw₀
    replace hnotmap : name ∉ st.registerMap.map Prod.fst := hnotmap₀
    simp only [List.map_cons, List.nodup_cons] at hnd
    have hport :
        addPortI { sw with baseWidth := rw, lo := lo, hi := hi } =
          .ok { sw with baseWidth := rw, lo := lo, hi := hi, hasI := true } := by
      simp [addPortI, hswI]
    have hins :
        insertW st.registerMap name (idx, lo, hi) =
          st.registerMap ++ [(name, idx, lo, hi)] :=
      insertW_fresh hnotmap _
    have hlookup₁ : ∀ x, x ≠ name →
        lookupW (updateW st.sliceWrappers name
          { sw with baseWidth := rw, lo := lo, hi := hi, hasI := true }) x =
          lookupW st.sliceWrappers x := by
      intro x hx
      rw [lookupW_updateW, if_neg hx]
    have hlookname :
        lookupW (updateW st.sliceWrappers name
          { sw with baseWidth := rw, lo := lo, hi := hi, hasI := true }) name =
          some { sw with baseWidth := rw, lo := lo, hi := hi, hasI := true } := by
      rw [lookupW_updateW, if_pos rfl, hsw]
      rfl
    have hrest : ∀ m' ∈ rest,
        (∃ sw₀,
          lookupW (updateW st.sliceWrappers name
            { sw with baseWidth := rw, lo := lo, hi := hi, hasI := true }) m'.1 =
            some sw₀ ∧ sw₀.hasI = false) ∧
          m'.1 ∉ (insertW st.registerMap name (idx, lo, hi)).map Prod.fst := by
      intro m' hm'
      have hne : m'.1 ≠ name := by
        intro e
        exact hnd.1 (e ▸ List.mem_map.mpr ⟨m', hm', rfl⟩)
      obtain ⟨⟨sw₀, h₀, h₀I⟩, hm₀⟩ := hfresh m' (List.mem_cons_of_mem _ hm')
      refine ⟨⟨sw₀, ?_, h₀I⟩, ?_⟩
      · rw [hlookup₁ _ hne]
        exact h₀
      · rw [hins, List.map_append, List.mem_append]
        rintro (h | h)
        · exact hm₀ h
        · simp at h
          exact hne h
    obtain ⟨st', hrun, hmap', hregs', hcache', haw', hdw', hplan', hout', hin'⟩ :=
      ih { st with
            sliceWrappers := updateW st.sliceWrappers name
              { sw with baseWidth := rw, lo := lo, hi := hi, hasI := true }
            registerMap := insertW st.registerMap name (idx, lo, hi) }
        hrest hnd.2
    have hstep :
        membersLoop idx rw st ((name, lo, hi) :: rest) =
          membersLoop idx rw
            { st with
              sliceWrappers := updateW st.sliceWrappers name
                { sw with baseWidth := rw, lo := lo, hi := hi, hasI := true }
              registerMap := insertW st.registerMap name (idx, lo, hi) } rest := by
      simp only [membersLoop, hsw, hport]
    refine ⟨st', by rw [hstep]; exact hrun, ?_, hregs', hcache', haw', hdw',
      hplan', ?_, ?_⟩
    · rw [hmap']
      have : ({ st with
          sliceWrappers := updateW st.sliceWrappers name
            { sw with baseWidth := rw, lo := lo, hi := hi, hasI := true }
          registerMap :=
            insertW st.registerMap name (idx, lo, hi) } : CState).registerMap =
          st.registerMap ++ [(name, idx, lo, hi)] := hins
      rw [this, List.append_assoc]
      rfl
    · intro n hn
      simp only [List.map_cons, List.mem_cons, not_or] at hn
      rw [hout' n hn.2]
      exact hlookup₁ n hn.1
    · intro n hn
      simp only [List.map_cons, List.mem_cons] at hn
      rcases hn with rfl | hn'
      · by_cases hmem : n ∈ rest.map Prod.fst
        · exact hin' n hmem
        · rw [hout' n hmem]
          exact ⟨_, hlookname, rfl⟩
      · exact hin' n hn'

theorem createRegister_ok {st : CState} {ws : List (String × Nat × Nat)}
    (hne : ws ≠ [])
    (hwidth : lastHi ws ≤ st.configDataWidth)
    (hfresh : ∀ m ∈ ws,
      (∃ sw, lookupW st.sliceWrappers m.1 = some sw ∧ sw.hasI = false) ∧
        m.1 ∉ st.registerMap.map Prod.fst)
    (hnd : (ws.map Prod.fst).Nodup) :
    ∃ st', createRegister st ws = .ok st' ∧
      st'.registers = st.registers ++ [mkBin st.registers.length ws] ∧
      st'.registerMap = st.registerMap ++
        ws.map (fun m => (m.1, st.registers.length, m.2.1, m.2.2)) ∧
      st'.registerCache = st.registerCache ∧
      st'.configAddrWidth = st.configAddrWidth ∧
      st'.configDataWidth = st.configDataWidth ∧
      st'.readbackPlan = st.readbackPlan ∧
      (∀ n, n ∉ ws.map Prod.fst →
        lookupW st'.sliceWrappers n = lookupW st.sliceWrappers n) ∧
      (∀ n, n ∈ ws.map Prod.fst →
        ∃ sw, lookupW st'.sliceWrappers n = some sw ∧ sw.hasI = true) := by
  obtain ⟨m, hm⟩ := Option.isSome_iff_exists.mp (List.getLast?_isSome.mpr hne)
  have hlast : lastHi ws = m.2.2 := lastHi_of_getLast hm
  have hcond : m.2.2 ≤ st.configDataWidth := hlast ▸ hwidth
  obtain ⟨st', hrun, hmap', hregs', hcache', haw', hdw', hplan', hout', hin'⟩ :=
    membersLoop_ok st.registers.length m.2.2 ws
      { st with
        registers := st.registers ++ [⟨st.registers.length, m.2.2, ws⟩] }
      hfresh hnd
  refine ⟨st', ?_, ?_, hmap', hcache', haw', hdw', hplan', hout', hin'⟩
  · simp only [createRegister, hm]
    rw [if_pos hcond]
    exact hrun
  · rw [hregs']
    show st.registers ++ [⟨st.registers.length, m.2.2, ws⟩] =
      st.registers ++ [mkBin st.registers.length ws]
    rw [mkBin, hlast]

/-! ### Preservation of the cache and the bus parameters -/

theorem membersLoop_preserves (idx rw : Nat) :
    ∀ (ws : List (String × Nat × Nat)) (st st' : CState),
      membersLoop idx rw st ws = .ok st' →
      st'.registerCache = st.registerCache ∧
      st'.configDataWidth = st.configDataWidth ∧
      st'.configAddrWidth = st.configAddrWidth ∧
      st'.registers = st.registers := by
  intro ws
  induction ws with
  | nil =>
    intro st st' h
    obtain rfl : st = st' := Except.ok.inj h
    exact ⟨rfl, rfl, rfl, rfl⟩
  | cons m rest ih =>
    intro st st' h
    obtain ⟨name, lo, hi⟩ := m
    rw [membersLoop] at h
    rcases hl : lookupW st.sliceWrappers name with _ | sw
    · simp [hl] at h
    · rcases hp : addPortI { sw with baseWidth := rw, lo := lo, hi := hi } with
        e | sw'
      · simp [hl, hp] at h
      · simp only [hl, hp] at h
        obtain ⟨h1, h2, h3, h4⟩ := ih _ _ h
        exact ⟨h1, h2, h3, h4⟩

theorem createRegister_preserves {st st' : CState}
    {ws : List (String × Nat × Nat)} (h : createRegister st ws = .ok st') :
    st'.registerCache = st.registerCache ∧
    st'.configDataWidth = st.configDataWidth ∧
    st'.configAddrWidth = st.configAddrWidth := by
  rw [createRegister] at h
  rcases hm : ws.getLast? with _ | m
  · simp [hm] at h
  · simp only [hm] at h
    by_cases hc : m.2.2 ≤ st.configDataWidth
    · rw [if_pos hc] at h
      obtain ⟨h1, h2, h3, _⟩ := membersLoop_preserves _ _ _ _ _ h
      exact ⟨h1, h2, h3⟩
    · rw [if_neg hc] at h
      exact absurd h (by simp)

theorem packLoop_preserves :
    ∀ (names : List String) (st : CState) (offset : Nat)
      (ws : List (String × Nat × Nat)) (st' : CState),
      packLoop st names offset ws = .ok st' →
      st'.registerCache = st.registerCache ∧
      st'.configDataWidth = st.configDataWidth ∧
      st'.configAddrWidth = st.configAddrWidth := by
  intro names
  induction names with
  | nil =>
    intro st offset ws st' h
    rw [packLoop] at h
    by_cases he : ws.isEmpty
    · rw [if_pos he] at h
      obtain rfl : st = st' := Except.ok.inj h
      exact ⟨rfl, rfl, rfl⟩
    · rw [if_neg he] at h
      exact createRegister_preserves h
  | cons n rest ih =>
    intro st offset ws st' h
    rw [packLoop] at h
    rcases hl : lookupW st.registerCache n with _ | w
    · simp [hl] at h
    · simp only [hl] at h
      by_cases hc : st.configDataWidth < w + offset
      · rw [if_pos hc] at h
        rcases hcr : createRegister st ws with e | st₁
        · simp [hcr] at h
        · simp only [hcr] at h
          obtain ⟨c1, c2, c3⟩ := createRegister_preserves hcr
          obtain ⟨p1, p2, p3⟩ := ih _ _ _ _ h
          exact ⟨p1.trans c1, p2.trans c2, p3.trans c3⟩
      · rw [if_neg hc] at h
        exact ih _ _ _ _ h

/-! ### The packing loop refines the spec-side packing -/

theorem lastHi_concat (ws : List (String × Nat × Nat)) (m : String × Nat × Nat) :
    lastHi (ws ++ [m]) = m.2.2 := by
  simp [lastHi]

theorem lastHi_nil_eq : lastHi ([] : List (String × Nat × Nat)) = 0 := rfl

theorem lastHi_singleton (m : String × Nat × Nat) : lastHi [m] = m.2.2 := by
  simp [lastHi]

theorem binsMap_concat (bins : List RegBin) (b : RegBin) :
    binsMap (bins ++ [b]) =
      binsMap bins ++ b.members.map (fun m => (m.1, b.index, m.2.1, m.2.2)) := by
  simp [binsMap]

theorem entriesKeys (idx : Nat) (ws : List (String × Nat × Nat)) :
    (ws.map fun m => (m.1, idx, m.2.1, m.2.2)).map Prod.fst = ws.map Prod.fst := by
  simp [List.map_map]

theorem packLoop_ok :
    ∀ (names : List String) (st : CState) (offset : Nat)
      (ws : List (String × Nat × Nat)),
      (∀ n ∈ names, ∃ w, lookupW st.registerCache n = some w ∧
        w ≤ st.configDataWidth) →
      lastHi ws = offset →
      offset ≤ st.configDataWidth →
      (ws.map Prod.fst ++ names).Nodup →
      (∀ n ∈ ws.map Prod.fst ++ names,
        (∃ sw, lookupW st.sliceWrappers n = some sw ∧ sw.hasI = false) ∧
          n ∉ st.registerMap.map Prod.fst) →
      st.registerMap = binsMap st.registers →
      ∃ st', packLoop st names offset ws = .ok st' ∧
        st'.registers =
          specPackLoop st.configDataWidth (fieldsOf names st.registerCache)
            offset ws st.registers ∧
        st'.registerMap = binsMap st'.registers ∧
        st'.registerCache = st.registerCache ∧
        st'.configAddrWidth = st.configAddrWidth ∧
        st'.configDataWidth = st.configDataWidth ∧
        (∀ n ∈ ws.map Prod.fst ++ names,
          ∃ sw, lookupW st'.sliceWrappers n = some sw ∧ sw.hasI = true) ∧
        (∀ n, n ∉ ws.map Prod.fst ++ names →
          lookupW st'.sliceWrappers n = lookupW st.sliceWrappers n) := by
  intro names
  induction names with
  | nil =>
    intro st offset ws _ hlast hoff hnd hfresh hmapinv
    by_cases hws : ws = []
    · subst hws
      refine ⟨st, ?_, ?_, hmapinv, rfl, rfl, rfl, ?_, fun n _ => rfl⟩
      · rw [packLoop]
        rfl
      · show st.registers = specPackLoop st.configDataWidth (fieldsOf [] st.registerCache) offset [] st.registers
        rw [fieldsOf, List.map_nil, specPackLoop]
        rfl
      · intro n hn
        simp at hn
    · have hfresh' : ∀ m ∈ ws,
          (∃ sw, lookupW st.sliceWrappers m.1 = some sw ∧ sw.hasI = false) ∧
            m.1 ∉ st.registerMap.map Prod.fst := by
        intro m hm
        exact hfresh m.1
          (List.mem_append_left _ (List.mem_map.mpr ⟨m, hm, rfl⟩))
      obtain ⟨st', hrun, hregs', hmap', hcache', haw', hdw', hplan', hout', hin'⟩ :=
        createRegister_ok hws (hlast ▸ hoff) hfresh'
          (List.append_nil (ws.map Prod.fst) ▸ hnd)
      refine ⟨st', ?_, ?_, ?_, hcache', haw', hdw', ?_, ?_⟩
      · rw [packLoop, if_neg (by simpa [List.isEmpty_iff] using hws)]
        exact hrun
      · rw [hregs', fieldsOf, List.map_nil, specPackLoop,
          if_neg (by simpa [List.isEmpty_iff] using hws)]
      · rw [hmap', hregs', hmapinv, binsMap_concat]
        rfl
      · intro n hn
        rw [List.append_nil] at hn
        exact hin' n hn
      · intro n hn
        rw [List.append_nil] at hn
        exact hout' n hn
  | cons nm rest ih =>
    intro st offset ws h1 hlast hoff hnd hfresh hmapinv
    obtain ⟨w, hw, hwle⟩ := h1 nm (List.mem_cons_self _ _)
    have hfields : fieldsOf (nm :: rest) st.registerCache =
        (nm, w) :: fieldsOf rest st.registerCache := by
      rw [fieldsOf, List.map_cons, hw]
      rfl
    by_cases hc : st.configDataWidth < w + offset
    · -- close the current bin, then continue with (nm, 0, w)
      have hws : ws ≠ [] := by
        intro he
        subst he
        rw [lastHi_nil_eq] at hlast
        omega
      have hfresh' : ∀ m ∈ ws,
          (∃ sw, lookupW st.sliceWrappers m.1 = some sw ∧ sw.hasI = false) ∧
            m.1 ∉ st.registerMap.map Prod.fst := by
        intro m hm
        exact hfresh m.1
          (List.mem_append_left _ (List.mem_map.mpr ⟨m, hm, rfl⟩))
      obtain ⟨st₁, hrun₁, hregs₁, hmap₁, hcache₁, haw₁, hdw₁, hplan₁, hout₁, hin₁⟩ :=
        createRegister_ok hws (hlast ▸ hoff) hfresh' hnd.of_append_left
      have hdisj : (ws.map Prod.fst).Disjoint (nm :: rest) :=
        List.disjoint_of_nodup_append hnd
      have hmapinv₁ : st₁.registerMap = binsMap st₁.registers := by
        rw [hmap₁, hregs₁, hmapinv, binsMap_concat]
        rfl
      have h1' : ∀ n ∈ rest, ∃ w', lookupW st₁.registerCache n = some w' ∧
          w' ≤ st₁.configDataWidth := by
        intro n hn
        obtain ⟨w', hw', hle'⟩ := h1 n (List.mem_cons_of_mem _ hn)
        exact ⟨w', hcache₁ ▸ hw', hdw₁ ▸ hle'⟩
      have hnd' : (([(nm, 0, w)].map Prod.fst ++ rest) : List String).Nodup := by
        simp only [List.map_cons, List.map_nil, List.singleton_append]
        exact hnd.of_append_right
      have hfresh₁ : ∀ n ∈ [(nm, 0, w)].map Prod.fst ++ rest,
          (∃ sw, lookupW st₁.sliceWrappers n = some sw ∧ sw.hasI = false) ∧
            n ∉ st₁.registerMap.map Prod.fst := by
        intro n hn
        simp only [List.map_cons, List.map_nil, List.singleton_append] at hn
        have hnin : n ∉ ws.map Prod.fst := fun hmem => hdisj hmem hn
        obtain ⟨hfw, hfm⟩ := hfresh n (List.mem_append_right _ hn)
        refine ⟨by rw [hout₁ n hnin]; exact hfw, ?_⟩
        rw [hmap₁, List.map_append, entriesKeys]
        simp only [List.mem_append, not_or]
        exact ⟨hfm, hnin⟩
      obtain ⟨st', hrun', hregs', hmap', hcache', haw', hdw', hin', hout'⟩ :=
        ih st₁ w [(nm, 0, w)] h1' (lastHi_singleton _) (hdw₁ ▸ hwle) hnd' hfresh₁
          hmapinv₁
      refine ⟨st', ?_, ?_, hmap', hcache'.trans hcache₁, haw'.trans haw₁,
        hdw'.trans hdw₁, ?_, ?_⟩
      · rw [packLoop]
        simp only [hw, if_pos hc, hrun₁]
        exact hrun'
      · rw [hregs', hfields, specPackLoop,
          if_neg (by omega : ¬offset + w ≤ st.configDataWidth)]
        rw [hcache₁, hdw₁, hregs₁]
      · intro n hn
        rcases List.mem_append.mp hn with hmem | hmem
        · have hnot : n ∉ [(nm, 0, w)].map Prod.fst ++ rest := by
            simp only [List.map_cons, List.map_nil, List.singleton_append]
            exact fun hc' => hdisj hmem hc'
          rw [hout' n hnot]
          exact hin₁ n hmem
        · refine hin' n ?_
          simp only [List.map_cons, List.map_nil, List.singleton_append]
          exact hmem
      · intro n hn
        simp only [List.mem_append, not_or] at hn
        have hnot : n ∉ [(nm, 0, w)].map Prod.fst ++ rest := by
          simp only [List.map_cons, List.map_nil, List.singleton_append]
          exact hn.2
        rw [hout' n hnot]
        exact hout₁ n hn.1
    · -- the field fits: append it to the working set
      have hle : offset + w ≤ st.configDataWidth := by omega
      have htrans : (ws ++ [(nm, offset, offset + w)]).map Prod.fst ++ rest =
          ws.map Prod.fst ++ (nm :: rest) := by
        rw [List.map_append]
        simp [List.append_assoc]
      obtain ⟨st', hrun', hregs', hmap', hcache', haw', hdw', hin', hout'⟩ :=
        ih st (offset + w) (ws ++ [(nm, offset, offset + w)]) 
          (fun n hn => h1 n (List.mem_cons_of_mem _ hn))
          (lastHi_concat _ _) hle (htrans ▸ hnd) (htrans ▸ hfresh) hmapinv
      refine ⟨st', ?_, ?_, hmap', hcache', haw', hdw', ?_, ?_⟩
      · rw [packLoop]
        simp only [hw, if_neg hc]
        exact hrun'
      · rw [hregs', hfields, specPackLoop, if_pos hle]
      · intro n hn
        exact hin' n (htrans.symm ▸ hn)
      · intro n hn
        exact hout' n (fun hc' => hn (htrans ▸ hc'))

/-! ### Completeness: a successful pack implies every width fits -/

theorem packLoop_complete :
    ∀ (names : List String) (st : CState) (offset : Nat)
      (ws : List (String × Nat × Nat)) (st' : CState),
      lastHi ws = offset →
      packLoop st names offset ws = .ok st' →
      (∀ n ∈ names, ∀ w, lookupW st.registerCache n = some w →
        w ≤ st.configDataWidth) ∧
      (ws ≠ [] → lastHi ws ≤ st.configDataWidth) := by
  intro names
  induction names with
  | nil =>
    intro st offset ws st' _ h
    refine ⟨fun n hn => absurd hn (by simp), ?_⟩
    intro hne
    rw [packLoop, if_neg (by simpa [List.isEmpty_iff] using hne),
      createRegister] at h
    obtain ⟨m, hm⟩ := Option.isSome_iff_exists.mp (List.getLast?_isSome.mpr hne)
    simp only [hm] at h
    by_cases hc : m.2.2 ≤ st.configDataWidth
    · rw [lastHi_of_getLast hm]
      exact hc
    · rw [if_neg hc] at h
      simp at h
  | cons n rest ih =>
    intro st offset ws st' hlast h
    rw [packLoop] at h
    rcases hl : lookupW st.registerCache n with _ | w
    · simp [hl] at h
    · simp only [hl] at h
      by_cases hc : st.configDataWidth < w + offset
      · rw [if_pos hc] at h
        rcases hcr : createRegister st ws with e | st₁
        · simp [hcr] at h
        · simp only [hcr] at h
          obtain ⟨hcache₁, hdw₁, _⟩ := createRegister_preserves hcr
          obtain ⟨hrest, hws'⟩ := ih st₁ w [(n, 0, w)] st' (lastHi_singleton _) h
          have hwle : w ≤ st.configDataWidth := by
            have hv := hws' (by simp)
            rw [lastHi_singleton] at hv
            rw [← hdw₁]
            exact hv
          refine ⟨?_, ?_⟩
          · intro x hx w' hw'
            rcases List.mem_cons.mp hx with rfl | hx'
            · rw [hl] at hw'
              have := Option.some.inj hw'
              omega
            · exact hdw₁ ▸ hrest x hx' w' (by rw [hcache₁]; exact hw')
          · intro hne
            rw [createRegister] at hcr
            obtain ⟨m, hm⟩ :=
              Option.isSome_iff_exists.mp (List.getLast?_isSome.mpr hne)
            simp only [hm] at hcr
            by_cases hcm : m.2.2 ≤ st.configDataWidth
            · rw [lastHi_of_getLast hm]
              exact hcm
            · rw [if_neg hcm] at hcr
              simp at hcr
      · rw [if_neg hc] at h
        obtain ⟨hrest, hws'⟩ :=
          ih st (offset + w) (ws ++ [(n, offset, offset + w)]) st'
            (lastHi_concat _ _) h
        have hcat := hws' (by simp)
        rw [lastHi_concat] at hcat
        refine ⟨?_, ?_⟩
        · intro x hx w' hw'
          rcases List.mem_cons.mp hx with rfl | hx'
          · rw [hl] at hw'
            have := Option.some.inj hw'
            omega
        
          · exact hrest x hx' w' hw'
        · intro _
          rw [hlast]
          omega

/-! ### After a successful finalize every wrapper port is taken, so a
repeated pack fails -/

theorem membersLoop_allPorts_error (idx rw : Nat) (st : CState)
    (name : String) (lo hi : Nat) (rest : List (String × Nat × Nat))
    (h : ∀ sw, lookupW st.sliceWrappers name = some sw → sw.hasI = true) :
    ∃ e, membersLoop idx rw st ((name, lo, hi) :: rest) = .error e := by
  rw [membersLoop]
  rcases hl : lookupW st.sliceWrappers name with _ | sw
  · exact ⟨.keyError, rfl⟩
  · refine ⟨.duplicatePortI, ?_⟩
    have hI := h sw hl
    simp only [hl, addPortI]
    simp [hI]

theorem createRegister_allPorts_error (st : CState)
    (ws : List (String × Nat × Nat)) (hne : ws ≠ [])
    (h : ∀ m ∈ ws, ∀ sw, lookupW st.sliceWrappers m.1 = some sw →
      sw.hasI = true) :
    ∃ e, createRegister st ws = .error e := by
  rw [createRegister]
  obtain ⟨m, hm⟩ := Option.isSome_iff_exists.mp (List.getLast?_isSome.mpr hne)
  simp only [hm]
  by_cases hc : m.2.2 ≤ st.configDataWidth
  · rw [if_pos hc]
    obtain ⟨⟨name, lo, hi⟩, tail, rfl⟩ : ∃ x t, ws = x :: t := by
      cases ws with
      | nil => exact absurd rfl hne
      | cons x t => exact ⟨x, t, rfl⟩
    exact membersLoop_allPorts_error _ _ _ name lo hi tail
      (fun sw hsw => h (name, lo, hi) (List.mem_cons_self _ _) sw hsw)
  · rw [if_neg hc]
    exact ⟨.widthAssert, rfl⟩

theorem packLoop_allPorts_error :
    ∀ (names : List String) (st : CState) (offset : Nat)
      (ws : List (String × Nat × Nat)),
      (∀ n sw, (n ∈ ws.map Prod.fst ∨ n ∈ names) →
        lookupW st.sliceWrappers n = some sw → sw.hasI = true) →
      ws ≠ [] ∨ names ≠ [] →
      ∃ e, packLoop st names offset ws = .error e := by
  intro names
  induction names with
  | nil =>
    intro st offset ws h hne
    rcases hne with hne | hne
    · obtain ⟨e, he⟩ := createRegister_allPorts_error st ws hne
        (fun m hm sw hsw =>
          h m.1 sw (Or.inl (List.mem_map.mpr ⟨m, hm, rfl⟩)) hsw)
      exact ⟨e, by rw [packLoop, if_neg (by simpa [List.isEmpty_iff] using hne),
        he]⟩
    · exact absurd rfl hne
  | cons n rest ih =>
    intro st offset ws h hne
    rcases hl : lookupW st.registerCache n with _ | w
    · exact ⟨.keyError, by rw [packLoop]; simp only [hl]⟩
    · by_cases hc : st.configDataWidth < w + offset
      · have hcr : ∃ e, createRegister st ws = .error e := by
          by_cases hws : ws = []
          · subst hws
            exact ⟨.indexError, rfl⟩
          · exact createRegister_allPorts_error st ws hws
              (fun m hm sw hsw =>
                h m.1 sw (Or.inl (List.mem_map.mpr ⟨m, hm, rfl⟩)) hsw)
        obtain ⟨e, he⟩ := hcr
        refine ⟨e, ?_⟩
        rw [packLoop]
        simp only [hl, if_pos hc, he]
      · obtain ⟨e, he⟩ := ih st (offset + w) (ws ++ [(n, offset, offset + w)])
          (fun x sw hx hsw => by
            refine h x sw ?_ hsw
            rcases hx with hx | hx
            · rw [List.map_append] at hx
              rcases List.mem_append.mp hx with hx' | hx'
              · exact Or.inl hx'
              · simp at hx'
                exact Or.inr (hx' ▸ List.mem_cons_self _ _)
            · exact Or.inr (List.mem_cons_of_mem _ hx))
          (Or.inl (by simp))
        refine ⟨e, ?_⟩
        rw [packLoop]
        simp only [hl, if_neg hc, he]

/-! ### Chain and coverage analysis of the packed bins -/

theorem membersJoin_concat (bins : List RegBin) (b : RegBin) :
    membersJoin (bins ++ [b]) = membersJoin bins ++ b.members := by
  simp [membersJoin]

theorem getLastD_cons_irrel (y : String × Nat × Nat)
    (t : List (String × Nat × Nat)) (f : String × Nat × Nat → Nat)
    (a b : Nat) :
    (((y :: t).getLast?.map f).getD a) = (((y :: t).getLast?.map f).getD b) := by
  obtain ⟨u, hu⟩ := Option.isSome_iff_exists.mp
    (List.getLast?_isSome.mpr (by simp : (y :: t) ≠ []))
  rw [hu]
  rfl

theorem chainB_append :
    ∀ (ws : List (String × Nat × Nat)) (a : Nat) (m : String × Nat × Nat),
      chainB a ws = true →
      m.2.1 = ((ws.getLast?.map fun x => x.2.2).getD a) →
      m.2.1 ≤ m.2.2 →
      chainB a (ws ++ [m]) = true := by
  intro ws
  induction ws with
  | nil =>
    intro a m _ hlo hle
    simp only [Option.getD, List.getLast?_nil, Option.map_none'] at hlo
    obtain ⟨nm, lo, hi⟩ := m
    simp only at hlo hle
    subst hlo
    simp [chainB, hle]
  | cons x rest ih =>
    intro a m hch hlo hle
    obtain ⟨nm, lo, hi⟩ := x
    simp only [chainB, Bool.and_eq_true, decide_eq_true_eq] at hch
    obtain ⟨⟨h1, h2⟩, h3⟩ := hch
    have hshift : ((((nm, lo, hi) :: rest).getLast?.map fun x => x.2.2).getD a) =
        ((rest.getLast?.map fun x => x.2.2).getD hi) := by
      cases rest with
      | nil => simp
      | cons y t =>
        rw [List.getLast?_cons_cons]
        exact getLastD_cons_irrel y t _ a hi
    rw [hshift] at hlo
    simp only [List.cons_append, chainB, Bool.and_eq_true, decide_eq_true_eq]
    exact ⟨⟨h1, h2⟩, ih hi m h3 hlo hle⟩

theorem chainB_bounds :
    ∀ (ws : List (String × Nat × Nat)) (a : Nat), chainB a ws = true →
      ∀ m ∈ ws, a ≤ m.2.1 ∧ m.2.1 ≤ m.2.2 := by
  intro ws
  induction ws with
  | nil =>
    intro a _ m hm
    simp at hm
  | cons x rest ih =>
    intro a hch m hm
    obtain ⟨nm, lo, hi⟩ := x
    simp only [chainB, Bool.and_eq_true, decide_eq_true_eq] at hch
    obtain ⟨⟨h1, h2⟩, h3⟩ := hch
    rcases List.mem_cons.mp hm with rfl | hm'
    · exact ⟨le_of_eq h1.symm, h2⟩
    · obtain ⟨ha, hb⟩ := ih hi h3 m hm'
      exact ⟨le_trans (le_trans (le_of_eq h1.symm) h2) ha, hb⟩

theorem chainB_pairwise :
    ∀ (ws : List (String × Nat × Nat)) (a : Nat), chainB a ws = true →
      ws.Pairwise (fun p q => p.2.2 ≤ q.2.1) := by
  intro ws
  induction ws with
  | nil => intro a _; exact List.Pairwise.nil
  | cons x rest ih =>
    intro a hch
    obtain ⟨nm, lo, hi⟩ := x
    simp only [chainB, Bool.and_eq_true, decide_eq_true_eq] at hch
    obtain ⟨⟨_, _⟩, h3⟩ := hch
    refine List.Pairwise.cons ?_ (ih hi h3)
    intro q hq
    exact (chainB_bounds rest hi h3 q hq).1

theorem chainB_cover :
    ∀ (ws : List (String × Nat × Nat)) (a x : Nat), chainB a ws = true →
      a ≤ x →
      (x < ((ws.getLast?.map fun m => m.2.2).getD a) ↔
        ∃ m ∈ ws, m.2.1 ≤ x ∧ x < m.2.2) := by
  intro ws
  induction ws with
  | nil =>
    intro a x _ hax
    simp [Nat.not_lt.mpr hax]
  | cons y rest ih =>
    intro a x hch hax
    obtain ⟨nm, lo, hi⟩ := y
    simp only [chainB, Bool.and_eq_true, decide_eq_true_eq] at hch
    obtain ⟨⟨h1, h2⟩, h3⟩ := hch
    subst h1
    have hshift : ((((nm, lo, hi) :: rest).getLast?.map fun m => m.2.2).getD lo) =
        ((rest.getLast?.map fun m => m.2.2).getD hi) := by
      cases rest with
      | nil => simp
      | cons z t =>
        rw [List.getLast?_cons_cons]
        exact getLastD_cons_irrel z t _ lo hi
    rw [hshift]
    by_cases hx : x < hi
    · have hgoal : x < ((rest.getLast?.map fun m => m.2.2).getD hi) := by
        have : hi ≤ ((rest.getLast?.map fun m => m.2.2).getD hi) := by
          cases hrest : rest with
          | nil => simp
          | cons z t =>
            have hz := chainB_bounds rest hi h3
            rw [hrest] at hz h3
            have hlast : (z :: t).getLast? = some ((z :: t).getLast (by simp)) :=
              List.getLast?_eq_getLast _ _
            rw [hlast]
            simp only [Option.map_some', Option.getD_some]
            obtain ⟨hza, hzb⟩ := hz ((z :: t).getLast (by simp))
              (List.getLast_mem _)
            omega
        omega
      simp only [hgoal, true_iff]
      exact ⟨(nm, lo, hi), List.mem_cons_self _ _, hax, hx⟩
    · have hhi : hi ≤ x := Nat.not_lt.mp hx
      rw [ih hi x h3 hhi]
      constructor
      · intro ⟨m, hm, hml, hmr⟩
        exact ⟨m, List.mem_cons_of_mem _ hm, hml, hmr⟩
      · intro ⟨m, hm, hml, hmr⟩
        rcases List.mem_cons.mp hm with rfl | hm'
        · simp only at hml hmr
          omega
        · exact ⟨m, hm', hml, hmr⟩

theorem specPackLoop_bins_good (dw : Nat) :
    ∀ (fields : List (String × Nat)) (offset : Nat)
      (ws : List (String × Nat × Nat)) (bins : List RegBin),
      (∀ f ∈ fields, f.2 ≤ dw) →
      chainB 0 ws = true →
      lastHi ws = offset →
      offset ≤ dw →
      (∀ b ∈ bins, chainB 0 b.members = true ∧ lastHi b.members = b.width ∧
        b.width ≤ dw) →
      ∀ b ∈ specPackLoop dw fields offset ws bins,
        chainB 0 b.members = true ∧ lastHi b.members = b.width ∧ b.width ≤ dw := by
  intro fields
  induction fields with
  | nil =>
    intro offset ws bins _ hch hlast hoff hbins b hb
    rw [specPackLoop] at hb
    by_cases hws : ws.isEmpty
    · rw [if_pos hws] at hb
      exact hbins b hb
    · rw [if_neg hws] at hb
      rcases List.mem_append.mp hb with hb' | hb'
      · exact hbins b hb'
      · simp only [List.mem_singleton] at hb'
        subst hb'
        refine ⟨hch, rfl, ?_⟩
        show lastHi ws ≤ dw
        rw [hlast]
        exact hoff
  | cons f rest ih =>
    intro offset ws bins hfld hch hlast hoff hbins b hb
    obtain ⟨nm, w⟩ := f
    have hw : w ≤ dw := hfld (nm, w) (List.mem_cons_self _ _)
    have hfld' : ∀ f ∈ rest, f.2 ≤ dw :=
      fun f hf => hfld f (List.mem_cons_of_mem _ hf)
    rw [specPackLoop] at hb
    by_cases hc : offset + w ≤ dw
    · rw [if_pos hc] at hb
      refine ih (offset + w) (ws ++ [(nm, offset, offset + w)]) bins hfld' ?_
        (lastHi_concat _ _) hc hbins b hb
      exact chainB_append ws 0 (nm, offset, offset + w) hch hlast.symm
        (by simp)
    · rw [if_neg hc] at hb
      refine ih w [(nm, 0, w)] (bins ++ [mkBin bins.length ws]) hfld'
        (by simp [chainB]) (lastHi_singleton _) hw ?_ b hb
      intro b' hb'
      rcases List.mem_append.mp hb' with h | h
      · exact hbins b' h
      · simp only [List.mem_singleton] at h
        subst h
        refine ⟨hch, rfl, ?_⟩
        show lastHi ws ≤ dw
        rw [hlast]
        exact hoff

theorem specPackLoop_members :
    ∀ (fields : List (String × Nat)) (dw offset : Nat)
      (ws : List (String × Nat × Nat)) (bins : List RegBin),
      ∃ tail,
        membersJoin (specPackLoop dw fields offset ws bins) =
          membersJoin bins ++ ws ++ tail ∧
        List.Forall₂ (fun (f : String × Nat) (m : String × Nat × Nat) =>
          m.1 = f.1 ∧ m.2.2 = m.2.1 + f.2) fields tail := by
  intro fields
  induction fields with
  | nil =>
    intro dw offset ws bins
    refine ⟨[], ?_, List.Forall₂.nil⟩
    rw [specPackLoop]
    by_cases hws : ws.isEmpty
    · rw [if_pos hws]
      obtain rfl := List.isEmpty_iff.mp hws
      simp
    · rw [if_neg hws, membersJoin_concat]
      simp [mkBin]
  | cons f rest ih =>
    intro dw offset ws bins
    obtain ⟨nm, w⟩ := f
    rw [specPackLoop]
    by_cases hc : offset + w ≤ dw
    · rw [if_pos hc]
      obtain ⟨tail, hj, hf⟩ := ih dw (offset + w) (ws ++ [(nm, offset, offset + w)]) bins
      refine ⟨(nm, offset, offset + w) :: tail, ?_, ?_⟩
      · rw [hj]
        simp
      · exact List.Forall₂.cons ⟨rfl, rfl⟩ hf
    · rw [if_neg hc]
      obtain ⟨tail, hj, hf⟩ := ih dw w [(nm, 0, w)] (bins ++ [mkBin bins.length ws])
      refine ⟨(nm, 0, w) :: tail, ?_, ?_⟩
      · rw [hj, membersJoin_concat]
        simp [mkBin]
      · exact List.Forall₂.cons ⟨rfl, (Nat.zero_add w).symm⟩ hf

/-! ### Characterization of a full successful finalize -/

theorem setupConfig_char {aw dw : Nat} {l : List (String × Nat)}
    {st st' : CState}
    (hadd : addConfigs (initState aw dw) l = .ok st)
    (hsetup : setupConfig st = .ok st') :
    (l.map Prod.fst).Nodup ∧
    st'.registers = specPack dw (sortedFieldsOf l) ∧
    st'.registerMap = binsMap st'.registers ∧
    st'.registerCache = l ∧
    st'.configAddrWidth = aw ∧
    st'.configDataWidth = dw ∧
    (∀ p ∈ l, p.2 ≤ dw) ∧
    (∀ n ∈ l.map Prod.fst,
      ∃ sw, lookupW st'.sliceWrappers n = some sw ∧ sw.hasI = true) ∧
    ∃ plan, setupReadback st'.registers aw dw = .ok plan ∧
      st'.readbackPlan = some plan := by
  obtain ⟨haw, hdw, hcache, hwr, hregs, hmap, _, hnd, _⟩ := addConfigs_ok_char hadd
  simp only [initState, List.nil_append] at haw hdw hcache hwr hregs hmap
  rw [setupConfig] at hsetup
  rcases hp : packLoop st (sortNames (st.registerCache.map Prod.fst)) 0 []
    with e | st₁
  · simp only [hp] at hsetup
    exact absurd hsetup (by simp)
  · simp only [hp] at hsetup
    rcases hr : setupReadback st₁.registers st₁.configAddrWidth
      st₁.configDataWidth with e | plan
    · simp only [hr] at hsetup
      exact absurd hsetup (by simp)
    · simp only [hr] at hsetup
      obtain rfl : ({ st₁ with readbackPlan := some plan } : CState) = st' :=
        Except.ok.inj hsetup
      have hnames : sortNames (st.registerCache.map Prod.fst) =
          sortNames (l.map Prod.fst) := by
        rw [hcache]
      rw [hnames] at hp
      have hsortnd : (sortNames (l.map Prod.fst)).Nodup := sortNames_nodup hnd
      -- widths are bounded because the pack succeeded
      obtain ⟨hwidths, _⟩ := packLoop_complete _ st 0 [] st₁ rfl hp
      have hwl : ∀ p ∈ l, p.2 ≤ dw := by
        intro p hp'
        have hmem : p.1 ∈ sortNames (l.map Prod.fst) :=
          sortNames_mem.mpr (List.mem_map.mpr ⟨p, hp', rfl⟩)
        have hlk : lookupW st.registerCache p.1 = some p.2 := by
          rw [hcache]
          exact lookupW_of_mem_nodup hnd hp'
        have := hwidths p.1 hmem p.2 hlk
        rw [hdw] at this
        exact this
      -- run the refinement lemma
      obtain ⟨st₂, hp₂, hregs₂, hmap₂, hcache₂, _, _, hin₂, _⟩ :=
        packLoop_ok (sortNames (l.map Prod.fst)) st 0 []
          (by
            intro n hn
            have hn' : n ∈ l.map Prod.fst := sortNames_mem.mp hn
            obtain ⟨p, hpmem, rfl⟩ := List.mem_map.mp hn'
            refine ⟨p.2, ?_, ?_⟩
            · rw [hcache]
              exact lookupW_of_mem_nodup hnd hpmem
            · rw [hdw]
              exact hwl p hpmem)
          rfl (by simp) (by simpa using hsortnd)
          (by
            intro n hn
            simp only [List.map_nil, List.nil_append] at hn
            have hn' : n ∈ l.map Prod.fst := sortNames_mem.mp hn
            obtain ⟨p, hpmem, rfl⟩ := List.mem_map.mp hn'
            refine ⟨⟨⟨dw, 0, p.2, false⟩, ?_, rfl⟩, ?_⟩
            · rw [hwr, lookupW_wrappersOf, lookupW_of_mem_nodup hnd hpmem]
              rfl
            · rw [hmap]
              simp)
          (by rw [hmap, hregs]; rfl)
      obtain rfl : st₁ = st₂ := by
        rw [hp] at hp₂
        exact Except.ok.inj hp₂
      refine ⟨hnd, ?_, hmap₂, hcache₂.trans hcache, ?_, ?_, hwl, ?_, ?_⟩
      · show st₁.registers = _
        rw [hregs₂, hregs, hcache, hdw]
        rfl
      · show st₁.configAddrWidth = aw
        obtain ⟨_, _, hpaw⟩ := packLoop_preserves _ _ _ _ _ hp
        rw [hpaw, haw]
      · show st₁.configDataWidth = dw
        obtain ⟨_, hpdw, _⟩ := packLoop_preserves _ _ _ _ _ hp
        rw [hpdw, hdw]
      · intro n hn
        refine hin₂ n ?_
        simp only [List.map_nil, List.nil_append]
        exact sortNames_mem.mpr hn
      · refine ⟨plan, ?_, rfl⟩
        obtain ⟨_, hpdw, hpaw⟩ := packLoop_preserves _ _ _ _ _ hp
        rw [← haw, ← hdw, ← hpaw, ← hpdw]
        exact hr

theorem setupConfig_error_of_wide {aw dw : Nat} {l : List (String × Nat)}
    {st : CState} (hadd : addConfigs (initState aw dw) l = .ok st)
    (hwide : ∃ p ∈ l, dw < p.2) :
    ∃ e, setupConfig st = .error e := by
  obtain ⟨_, hdw, hcache, _, _, _, _, hnd, _⟩ := addConfigs_ok_char hadd
  simp only [initState, List.nil_append] at hdw hcache
  rcases hp : packLoop st (sortNames (st.registerCache.map Prod.fst)) 0 []
    with e | st₁
  · exact ⟨e, by rw [setupConfig, hp]⟩
  · exfalso
    obtain ⟨p, hpmem, hpwide⟩ := hwide
    obtain ⟨hwidths, _⟩ := packLoop_complete _ st 0 [] st₁ rfl hp
    have hmem : p.1 ∈ sortNames (st.registerCache.map Prod.fst) := by
      rw [hcache]
      exact sortNames_mem.mpr (List.mem_map.mpr ⟨p, hpmem, rfl⟩)
    have hlk : lookupW st.registerCache p.1 = some p.2 := by
      rw [hcache]
      exact lookupW_of_mem_nodup hnd hpmem
    have := hwidths p.1 hmem p.2 hlk
    rw [hdw] at this
    omega

/-! ### Observational equivalence: packing cannot distinguish states with the
same lookups -/

theorem membersLoop_equiv (idx rw : Nat) :
    ∀ (ws : List (String × Nat × Nat)) (s t : CState), StEquiv s t →
      (∃ e, membersLoop idx rw s ws = .error e ∧
        membersLoop idx rw t ws = .error e) ∨
      (∃ s' t', membersLoop idx rw s ws = .ok s' ∧
        membersLoop idx rw t ws = .ok t' ∧ StEquiv s' t') := by
  intro ws
  induction ws with
  | nil =>
    intro s t h
    exact Or.inr ⟨s, t, rfl, rfl, h⟩
  | cons m rest ih =>
    intro s t h
    obtain ⟨name, lo, hi⟩ := m
    obtain ⟨haw, hdw, hregs, hmap, hcache, hwr⟩ := h
    rcases hl : lookupW s.sliceWrappers name with _ | sw
    · refine Or.inl ⟨.keyError, ?_, ?_⟩
      · rw [membersLoop, hl]
      · rw [membersLoop, ← hwr name, hl]
    · have hlt : lookupW t.sliceWrappers name = some sw := by
        rw [← hwr name, hl]
      rcases hp : addPortI { sw with baseWidth := rw, lo := lo, hi := hi } with
        e | sw'
      · refine Or.inl ⟨e, ?_, ?_⟩
        · rw [membersLoop]
          simp only [hl, hp]
        · rw [membersLoop]
          simp only [hlt, hp]
      · have hstep_s : membersLoop idx rw s ((name, lo, hi) :: rest) =
            membersLoop idx rw
              { s with
                sliceWrappers := updateW s.sliceWrappers name sw'
                registerMap := insertW s.registerMap name (idx, lo, hi) }
              rest := by
          rw [membersLoop]
          simp only [hl, hp]
        have hstep_t : membersLoop idx rw t ((name, lo, hi) :: rest) =
            membersLoop idx rw
              { t with
                sliceWrappers := updateW t.sliceWrappers name sw'
                registerMap := insertW t.registerMap name (idx, lo, hi) }
              rest := by
          rw [membersLoop]
          simp only [hlt, hp]
        have hequiv' : StEquiv
            { s with
              sliceWrappers := updateW s.sliceWrappers name sw'
              registerMap := insertW s.registerMap name (idx, lo, hi) }
            { t with
              sliceWrappers := updateW t.sliceWrappers name sw'
              registerMap := insertW t.registerMap name (idx, lo, hi) } := by
          refine ⟨haw, hdw, hregs, ?_, hcache, ?_⟩
          · show insertW s.registerMap name (idx, lo, hi) =
              insertW t.registerMap name (idx, lo, hi)
            rw [hmap]
          · intro x
            show lookupW (updateW s.sliceWrappers name sw') x =
              lookupW (updateW t.sliceWrappers name sw') x
            rw [lookupW_updateW, lookupW_updateW, hwr name, hwr x]
        rcases ih _ _ hequiv' with ⟨e, he₁, he₂⟩ | ⟨s', t', hs', ht', h'⟩
        · exact Or.inl ⟨e, by rw [hstep_s]; exact he₁, by rw [hstep_t]; exact he₂⟩
        · exact Or.inr ⟨s', t', by rw [hstep_s]; exact hs',
            by rw [hstep_t]; exact ht', h'⟩

theorem createRegister_equiv {s t : CState} (ws : List (String × Nat × Nat))
    (h : StEquiv s t) :
    (∃ e, createRegister s ws = .error e ∧ createRegister t ws = .error e) ∨
    (∃ s' t', createRegister s ws = .ok s' ∧ createRegister t ws = .ok t' ∧
      StEquiv s' t') := by
  obtain ⟨haw, hdw, hregs, hmap, hcache, hwr⟩ := h
  rw [createRegister, createRegister, ← hregs]
  rcases hm : ws.getLast? with _ | m
  · exact Or.inl ⟨.indexError, rfl, rfl⟩
  · simp only [hm]
    by_cases hc : m.2.2 ≤ s.configDataWidth
    · rw [if_pos hc, if_pos (hdw ▸ hc)]
      have hequiv' : StEquiv
          { s with registers :=
              s.registers ++ [⟨s.registers.length, m.2.2, ws⟩] }
          { t with registers :=
              s.registers ++ [⟨s.registers.length, m.2.2, ws⟩] } :=
        ⟨haw, hdw, rfl, hmap, hcache, hwr⟩
      exact membersLoop_equiv _ _ ws _ _ hequiv'
    · rw [if_neg hc, if_neg (hdw ▸ hc)]
      exact Or.inl ⟨.widthAssert, rfl, rfl⟩

theorem packLoop_equiv :
    ∀ (names : List String) (offset : Nat) (ws : List (String × Nat × Nat))
      (s t : CState), StEquiv s t →
      (∃ e, packLoop s names offset ws = .error e ∧
        packLoop t names offset ws = .error e) ∨
      (∃ s' t', packLoop s names offset ws = .ok s' ∧
        packLoop t names offset ws = .ok t' ∧ StEquiv s' t') := by
  intro names
  induction names with
  | nil =>
    intro offset ws s t h
    by_cases hws : ws.isEmpty
    · rw [packLoop, packLoop, if_pos hws, if_pos hws]
      exact Or.inr ⟨s, t, rfl, rfl, h⟩
    · rw [packLoop, packLoop, if_neg hws, if_neg hws]
      exact createRegister_equiv ws h
  | cons n rest ih =>
    intro offset ws s t h
    have hdw := h.2.1
    have hcache := h.2.2.2.2.1
    rcases hl : lookupW s.registerCache n with _ | w
    · refine Or.inl ⟨.keyError, ?_, ?_⟩
      · rw [packLoop, hl]
      · rw [packLoop, ← hcache n, hl]
    · have hlt : lookupW t.registerCache n = some w := by
        rw [← hcache n, hl]
      by_cases hc : s.configDataWidth < w + offset
      · rcases createRegister_equiv ws h with ⟨e, he₁, he₂⟩ |
          ⟨s₁, t₁, hs₁, ht₁, h₁⟩
        · refine Or.inl ⟨e, ?_, ?_⟩
          · rw [packLoop]
            simp only [hl, if_pos hc, he₁]
          · rw [packLoop]
            simp only [hlt, if_pos (hdw ▸ hc), he₂]
        · have hequivnext := ih w [(n, 0, w)] s₁ t₁ h₁
          rcases hequivnext with ⟨e, he₁, he₂⟩ | ⟨s', t', hs', ht', h'⟩
          · refine Or.inl ⟨e, ?_, ?_⟩
            · rw [packLoop]
              simp only [hl, if_pos hc, hs₁]
              exact he₁
            · rw [packLoop]
              simp only [hlt, if_pos (hdw ▸ hc), ht₁]
              exact he₂
          · refine Or.inr ⟨s', t', ?_, ?_, h'⟩
            · rw [packLoop]
              simp only [hl, if_pos hc, hs₁]
              exact hs'
            · rw [packLoop]
              simp only [hlt, if_pos (hdw ▸ hc), ht₁]
              exact ht'
      · have hct : ¬t.configDataWidth < w + offset := hdw ▸ hc
        rcases ih (offset + w) (ws ++ [(n, offset, offset + w)]) s t h with
          ⟨e, he₁, he₂⟩ | ⟨s', t', hs', ht', h'⟩
        · refine Or.inl ⟨e, ?_, ?_⟩
          · rw [packLoop]
            simp only [hl, if_neg hc]
            exact he₁
          · rw [packLoop]
            simp only [hlt, if_neg hct]
            exact he₂
        · refine Or.inr ⟨s', t', ?_, ?_, h'⟩
          · rw [packLoop]
            simp only [hl, if_neg hc]
            exact hs'
          · rw [packLoop]
            simp only [hlt, if_neg hct]
            exact ht'

/-! ### Small helpers for coverage counting and read-back -/

theorem lookupW_mem {α : Type} :
    ∀ {l : List (String × α)} {n : String} {v : α},
      lookupW l n = some v → (n, v) ∈ l := by
  intro l
  induction l with
  | nil => intro n v h; simp [lookupW] at h
  | cons p rest ih =>
    intro n v h
    obtain ⟨k, w⟩ := p
    rw [lookupW] at h
    by_cases hk : n = k
    · rw [if_pos hk] at h
      obtain rfl := Option.some.inj h
      subst hk
      exact List.mem_cons_self _ _
    · rw [if_neg hk] at h
      exact List.mem_cons_of_mem _ (ih h)

theorem count_eq_one_of_nodup_mem {l : List String} {a : String}
    (nd : l.Nodup) (h : a ∈ l) : l.count a = 1 :=
  Nat.le_antisymm (List.nodup_iff_count_le_one.mp nd a)
    (List.count_pos_iff.mpr h)

theorem membersJoin_cons (b : RegBin) (bins : List RegBin) :
    membersJoin (b :: bins) = b.members ++ membersJoin bins := by
  simp [membersJoin]

theorem binsMap_keys (bins : List RegBin) :
    (binsMap bins).map Prod.fst = (membersJoin bins).map Prod.fst := by
  induction bins with
  | nil => rfl
  | cons b rest ih =>
    show ((b.members.map fun m => (m.1, b.index, m.2.1, m.2.2)) ++
      binsMap rest).map Prod.fst = _
    rw [membersJoin_cons, List.map_append, List.map_append, ih, List.map_map]
    rfl

theorem binsMap_mem_of_join {bins : List RegBin} {m : String × Nat × Nat}
    (h : m ∈ membersJoin bins) :
    ∃ idx, (m.1, idx, m.2.1, m.2.2) ∈ binsMap bins := by
  rw [membersJoin] at h
  obtain ⟨ms, hms, hmem⟩ := List.mem_flatten.mp h
  obtain ⟨b, hb, rfl⟩ := List.mem_map.mp hms
  refine ⟨b.index, ?_⟩
  rw [binsMap]
  exact List.mem_flatten_of_mem (List.mem_map.mpr ⟨b, hb, rfl⟩)
    (List.mem_map.mpr ⟨m, hmem, rfl⟩)

theorem countP_bins_zero (n : String) :
    ∀ bins : List RegBin,
      ((membersJoin bins).map Prod.fst).count n = 0 →
      bins.countP (fun b => decide (n ∈ b.members.map Prod.fst)) = 0 := by
  intro bins
  induction bins with
  | nil => intro _; rfl
  | cons b rest ih =>
    intro h
    rw [membersJoin_cons, List.map_append, List.count_append] at h
    have h1 : (b.members.map Prod.fst).count n = 0 := by omega
    have h2 : ((membersJoin rest).map Prod.fst).count n = 0 := by omega
    rw [List.countP_cons, ih h2]
    simp [List.count_eq_zero.mp h1]

theorem countP_bins_one (n : String) :
    ∀ bins : List RegBin,
      ((membersJoin bins).map Prod.fst).count n = 1 →
      bins.countP (fun b => decide (n ∈ b.members.map Prod.fst)) = 1 := by
  intro bins
  induction bins with
  | nil => intro h; simp [membersJoin] at h
  | cons b rest ih =>
    intro h
    rw [membersJoin_cons, List.map_append, List.count_append] at h
    rw [List.countP_cons]
    by_cases hm : n ∈ b.members.map Prod.fst
    · have hpos : 0 < (b.members.map Prod.fst).count n :=
        List.count_pos_iff.mpr hm
      have h2 : ((membersJoin rest).map Prod.fst).count n = 0 := by omega
      rw [countP_bins_zero n rest h2]
      simp [hm]
    · have h1 : (b.members.map Prod.fst).count n = 0 :=
        List.count_eq_zero.mpr hm
      have h2 : ((membersJoin rest).map Prod.fst).count n = 1 := by omega
      rw [ih h2]
      simp [hm]

theorem forall₂_names {fields : List (String × Nat)}
    {tail : List (String × Nat × Nat)}
    (h : List.Forall₂ (fun (f : String × Nat) (m : String × Nat × Nat) =>
      m.1 = f.1 ∧ m.2.2 = m.2.1 + f.2) fields tail) :
    tail.map Prod.fst = fields.map Prod.fst := by
  induction h with
  | nil => rfl
  | cons h₁ _ ih => simp [ih, h₁.1]

theorem forall₂_mem_exists {α β : Type} {R : α → β → Prop} :
    ∀ {fs : List α} {ts : List β}, List.Forall₂ R fs ts →
      ∀ {f : α}, f ∈ fs → ∃ m ∈ ts, R f m := by
  intro fs ts h
  induction h with
  | nil => intro f hf; simp at hf
  | cons h₁ _ ih =>
    intro f hf
    rcases List.mem_cons.mp hf with rfl | hf'
    · exact ⟨_, List.mem_cons_self _ _, h₁⟩
    · obtain ⟨m, hm, hr⟩ := ih hf'
      exact ⟨m, List.mem_cons_of_mem _ hm, hr⟩

theorem mem_sortedFieldsOf {l : List (String × Nat)} {p : String × Nat}
    (nd : (l.map Prod.fst).Nodup) (h : p ∈ l) : p ∈ sortedFieldsOf l := by
  rw [sortedFieldsOf, fieldsOf]
  refine List.mem_map.mpr ⟨p.1, ?_, ?_⟩
  · exact sortNames_mem.mpr (List.mem_map.mpr ⟨p, h, rfl⟩)
  · rw [lookupW_of_mem_nodup nd (by exact h)]
    rfl

theorem sortedFieldsOf_widths {l : List (String × Nat)}
    (nd : (l.map Prod.fst).Nodup) {dw : Nat} (hw : ∀ p ∈ l, p.2 ≤ dw) :
    ∀ f ∈ sortedFieldsOf l, f.2 ≤ dw := by
  intro f hf
  rw [sortedFieldsOf, fieldsOf] at hf
  obtain ⟨n, _, rfl⟩ := List.mem_map.mp hf
  rcases hl : lookupW l n with _ | w
  · simp [hl]
  · have := hw (n, w) (lookupW_mem hl)
    simpa [hl] using this

theorem sortedFieldsOf_names (l : List (String × Nat)) :
    (sortedFieldsOf l).map Prod.fst = sortNames (l.map Prod.fst) := by
  rw [sortedFieldsOf, fieldsOf, List.map_map]
  exact List.map_id _

theorem addConfigs_append (l₁ l₂ : List (String × Nat)) :
    ∀ st : CState, addConfigs st (l₁ ++ l₂) =
      match addConfigs st l₁ with
      | .error e => .error e
      | .ok st' => addConfigs st' l₂ := by
  induction l₁ with
  | nil => intro st; rfl
  | cons p rest ih =>
    intro st
    obtain ⟨n, w⟩ := p
    rw [List.cons_append, addConfigs, addConfigs]
    rcases addConfig st n w with e | st'
    · rfl
    · exact ih st'

theorem finalized_coverage {aw dw : Nat} {l : List (String × Nat)}
    {st st' : CState}
    (hadd : addConfigs (initState aw dw) l = .ok st)
    (hsetup : setupConfig st = .ok st') :
    (membersJoin st'.registers).map Prod.fst = sortNames (l.map Prod.fst) ∧
    ∀ p ∈ l,
      ((membersJoin st'.registers).map Prod.fst).count p.1 = 1 ∧
      ∃ lo, (p.1, lo, lo + p.2) ∈ membersJoin st'.registers := by
  obtain ⟨hnd, hregs, _, _, _, _, _, _, _⟩ := setupConfig_char hadd hsetup
  obtain ⟨tail, hj, hf⟩ := specPackLoop_members (sortedFieldsOf l) dw 0 [] []
  have hspec : specPack dw (sortedFieldsOf l) =
      specPackLoop dw (sortedFieldsOf l) 0 [] [] := rfl
  have hjoin : membersJoin st'.registers = tail := by
    rw [hregs, hspec, hj]
    simp [membersJoin]
  have hnames : (membersJoin st'.registers).map Prod.fst =
      sortNames (l.map Prod.fst) := by
    rw [hjoin, forall₂_names hf, sortedFieldsOf_names]
  refine ⟨hnames, ?_⟩
  intro p hp
  constructor
  · rw [hnames]
    exact count_eq_one_of_nodup_mem (sortNames_nodup hnd)
      (sortNames_mem.mpr (List.mem_map.mpr ⟨p, hp, rfl⟩))
  · obtain ⟨m, hm, hr⟩ := forall₂_mem_exists hf (mem_sortedFieldsOf hnd hp)
    refine ⟨m.2.1, ?_⟩
    have hmeq : m = (p.1, m.2.1, m.2.1 + p.2) := by
      obtain ⟨nm, lo, hi⟩ := m
      simp only at hr
      simp [hr.1, hr.2]
    rw [← hmeq, hjoin]
    exact hm

theorem muxSelBits_le_iff (n aw : Nat) : muxSelBits n ≤ aw ↔ n ≤ 2 ^ aw := by
  rw [muxSelBits_eq_clog]
  exact (Nat.le_pow_iff_clog_le (by norm_num)).symm

theorem setupReadback_char (regs : List RegBin) (aw dw : Nat) :
    (regs = [] → setupReadback regs aw dw = .ok .unconnected) ∧
    (∀ r, regs = [r] → setupReadback regs aw dw =
      .ok (.direct (zextPort (.regO r.index r.width) r.width dw))) ∧
    (1 < regs.length → muxSelBits regs.length ≤ aw →
      setupReadback regs aw dw = .ok (.mux (muxSelBits regs.length)
        (regs.map fun r => zextPort (.regO r.index r.width) r.width dw))) ∧
    (1 < regs.length → aw < muxSelBits regs.length →
      setupReadback regs aw dw = .error .wireWidthMismatch) := by
  refine ⟨?_, ?_, ?_, ?_⟩
  · rintro rfl
    rfl
  · rintro r rfl
    rfl
  · intro hlen hsel
    have hmin : min (muxSelBits regs.length) aw = muxSelBits regs.length :=
      min_eq_left hsel
    simp only [setupReadback, if_pos hlen]
    rw [hmin, wireWidths, if_pos rfl]
  · intro hlen hsel
    have hmin : min (muxSelBits regs.length) aw = aw :=
      min_eq_right (le_of_lt hsel)
    simp only [setupReadback, if_pos hlen]
    rw [hmin, wireWidths,
      if_neg (by omega : ¬aw = muxSelBits regs.length)]

/-! ### The claims -/

/-- C1: for every set of declared (name, width) pairs with each width at most
`config_data_width`, finalization packs fields by first-fit in lexicographic
name order exactly as the spec words describe it (`specPackLoop`/`specPack`):
a running offset starts at 0, a field joins the current bin at
`[offset, offset + width)` when it fits, and otherwise the bin is closed
(index = bins emitted so far, width = last member's `hi`) and the field starts
a new bin at offset 0; in particular fields a:5, b:5 with
`config_data_width = 8` yield bin 0 holding a at [0,5) and bin 1 holding b at
[0,5). -/
theorem C1_first_fit_packing :
    (∀ (aw dw : Nat) (l : List (String × Nat)) (st st' : CState),
      addConfigs (initState aw dw) l = .ok st →
      (∀ p ∈ l, p.2 ≤ dw) →
      setupConfig st = .ok st' →
      st'.registers = specPack dw (sortedFieldsOf l)) ∧
    ((addConfigs (initState 8 8) [("a", 5), ("b", 5)]).bind setupConfig).map
      (fun s => s.registers) =
      .ok [⟨0, 5, [("a", 0, 5)]⟩, ⟨1, 5, [("b", 0, 5)]⟩] := by
  constructor
  · intro aw dw l st st' hadd _ hsetup
    exact (setupConfig_char hadd hsetup).2.1
  · decide

/-- C1 witness: the general statement applied to the concrete declaration
sequence a:5, b:5 on an 8/8 bus. -/
theorem C1_first_fit_packing_witness :
    (∀ p ∈ [(("a" : String), 5), ("b", 5)], p.2 ≤ 8) ∧
    (⟨8, 8, [("a", 5), ("b", 5)],
      [("a", ⟨5, 0, 5, true⟩), ("b", ⟨5, 0, 5, true⟩)],
      [⟨0, 5, [("a", 0, 5)]⟩, ⟨1, 5, [("b", 0, 5)]⟩],
      [("a", 0, 0, 5), ("b", 1, 0, 5)],
      some (.mux 1 [.zextO (.regO 0 5) 8, .zextO (.regO 1 5) 8])⟩ :
        CState).registers =
      specPack 8 (sortedFieldsOf [("a", 5), ("b", 5)]) :=
  ⟨by decide,
    C1_first_fit_packing.1 8 8 [("a", 5), ("b", 5)]
      ⟨8, 8, [("a", 5), ("b", 5)],
        [("a", ⟨8, 0, 5, false⟩), ("b", ⟨8, 0, 5, false⟩)], [], [], none⟩
      ⟨8, 8, [("a", 5), ("b", 5)],
        [("a", ⟨5, 0, 5, true⟩), ("b", ⟨5, 0, 5, true⟩)],
        [⟨0, 5, [("a", 0, 5)]⟩, ⟨1, 5, [("b", 0, 5)]⟩],
        [("a", 0, 0, 5), ("b", 1, 0, 5)],
        some (.mux 1 [.zextO (.regO 0 5) 8, .zextO (.regO 1 5) 8])⟩
      (by decide) (by decide) (by decide)⟩

/-- C2: declaring the same set of (name, width) pairs in any two orders yields
an identical list of RegisterBins and an identical AddressMap (and the two
finalizations fail identically when they fail): the layout depends only on the
set of names and widths. -/
theorem C2_order_independence :
    ∀ (aw dw : Nat) (l₁ l₂ : List (String × Nat)) (st₁ st₂ : CState),
      l₁.Perm l₂ →
      (l₁.map Prod.fst).Nodup →
      addConfigs (initState aw dw) l₁ = .ok st₁ →
      addConfigs (initState aw dw) l₂ = .ok st₂ →
      (setupConfig st₁).map (fun s => (s.registers, s.registerMap)) =
        (setupConfig st₂).map (fun s => (s.registers, s.registerMap)) := by
  intro aw dw l₁ l₂ st₁ st₂ hperm hnd hadd₁ hadd₂
  obtain ⟨haw₁, hdw₁, hcache₁, hwr₁, hregs₁, hmap₁, _, _, _⟩ :=
    addConfigs_ok_char hadd₁
  obtain ⟨haw₂, hdw₂, hcache₂, hwr₂, hregs₂, hmap₂, _, _, _⟩ :=
    addConfigs_ok_char hadd₂
  simp only [initState, List.nil_append] at haw₁ hdw₁ hcache₁ hwr₁ hregs₁ hmap₁
  simp only [initState, List.nil_append] at haw₂ hdw₂ hcache₂ hwr₂ hregs₂ hmap₂
  have hkeys : (l₁.map Prod.fst).Perm (l₂.map Prod.fst) := hperm.map Prod.fst
  have hequiv : StEquiv st₁ st₂ := by
    refine ⟨haw₁.trans haw₂.symm, hdw₁.trans hdw₂.symm,
      hregs₁.trans hregs₂.symm, hmap₁.trans hmap₂.symm, ?_, ?_⟩
    · intro n
      rw [hcache₁, hcache₂]
      exact lookupW_perm hperm hnd n
    · intro n
      rw [hwr₁, hwr₂, lookupW_wrappersOf, lookupW_wrappersOf,
        lookupW_perm hperm hnd n]
  have hnames : sortNames (st₂.registerCache.map Prod.fst) =
      sortNames (st₁.registerCache.map Prod.fst) := by
    rw [hcache₁, hcache₂]
    exact (sortNames_eq_of_perm hkeys).symm
  rw [setupConfig, setupConfig, hnames]
  rcases packLoop_equiv (sortNames (st₁.registerCache.map Prod.fst)) 0 []
    st₁ st₂ hequiv with ⟨e, h1, h2⟩ | ⟨s', t', h1, h2, hst⟩
  · simp [h1, h2]
  · simp only [h1, h2]
    obtain ⟨haw', hdw', hregs', hmap', _, _⟩ := hst
    rw [hregs', haw', hdw']
    rcases hr : setupReadback t'.registers t'.configAddrWidth
      t'.configDataWidth with e | plan
    · rfl
    · simp [Except.map, hregs', hmap']

/-- C2 witness: the general statement applied to the two declaration orders of
the set a:4, b:4 on an 8/8 bus. -/
theorem C2_order_independence_witness :
    (setupConfig ⟨8, 8, [("a", 4), ("b", 4)],
        [("a", ⟨8, 0, 4, false⟩), ("b", ⟨8, 0, 4, false⟩)],
        [], [], none⟩).map (fun s => (s.registers, s.registerMap)) =
      (setupConfig ⟨8, 8, [("b", 4), ("a", 4)],
        [("b", ⟨8, 0, 4, false⟩), ("a", ⟨8, 0, 4, false⟩)],
        [], [], none⟩).map (fun s => (s.registers, s.registerMap)) :=
  C2_order_independence 8 8 [("a", 4), ("b", 4)] [("b", 4), ("a", 4)] _ _
    (List.Perm.swap ("b", 4) ("a", 4) []) (by decide) (by decide) (by decide)

/-- C4: `get_config_data` looks `(idx, lo, hi)` up in the address map and
returns `(idx, value <<< lo)` when `value < 2 ^ (hi - lo)`, fails with the
overflow assertion when `value ≥ 2 ^ (hi - lo)`, and fails with a key error
when the name is absent; in particular encoding the value 20 into the width-4
field a fails. -/
theorem C4_encode_errors :
    (∀ (st : CState) (name : String) (value : Nat),
      (lookupW st.registerMap name = none →
        getConfigData st name value = .error .keyError) ∧
      (∀ idx lo hi, lookupW st.registerMap name = some (idx, lo, hi) →
        (value < 2 ^ (hi - lo) →
          getConfigData st name value = .ok (idx, value * 2 ^ lo)) ∧
        (2 ^ (hi - lo) ≤ value →
          getConfigData st name value = .error .overflowAssert))) ∧
    ((addConfigs (initState 8 8) [("a", 4)]).bind setupConfig).bind
      (fun s => getConfigData s "a" 20) = .error .overflowAssert := by
  constructor
  · intro st name value
    constructor
    · intro h
      simp only [getConfigData, h]
    · intro idx lo hi h
      constructor
      · intro hv
        simp only [getConfigData, h]
        rw [if_pos hv]
      · intro hv
        simp only [getConfigData, h]
        rw [if_neg (by omega : ¬value < 2 ^ (hi - lo))]
  · decide

/-- C4 witness: the general statement applied to the finalized width-4 field a
and the value 20. -/
theorem C4_encode_errors_witness :
    2 ^ (4 - 0) ≤ 20 ∧
    getConfigData ⟨8, 8, [("a", 4)], [("a", ⟨4, 0, 4, true⟩)],
      [⟨0, 4, [("a", 0, 4)]⟩], [("a", 0, 0, 4)],
      some (.direct (.zextO (.regO 0 4) 8))⟩ "a" 20 =
      .error .overflowAssert :=
  ⟨by decide,
    ((C4_encode_errors.1 ⟨8, 8, [("a", 4)], [("a", ⟨4, 0, 4, true⟩)],
      [⟨0, 4, [("a", 0, 4)]⟩, ], [("a", 0, 0, 4)],
      some (.direct (.zextO (.regO 0 4) 8))⟩ "a" 20).2 0 0 4
      (by decide)).2 (by decide)⟩

/-- C9: declaring a name that is already present fails with the duplicate
error and, the check being performed before any mutation, leaves the registry
unchanged (an error result carries no new state); in particular declaring a
twice fails on the second call. -/
theorem C9_duplicate_declare :
    (∀ (st : CState) (name : String) (w : Nat),
      (lookupW st.sliceWrappers name).isSome = true →
      addConfig st name w = .error .alreadyRegistered) ∧
    (addConfig (initState 8 32) "a" 4).bind (fun s => addConfig s "a" 4) =
      .error .alreadyRegistered := by
  constructor
  · intro st name w h
    rw [addConfig, if_pos h]
  · decide

/-- C9 witness: the general statement applied to a state that already holds
the name a. -/
theorem C9_duplicate_declare_witness :
    (lookupW (⟨8, 32, [("a", 4)], [("a", ⟨32, 0, 4, false⟩)], [], [],
      none⟩ : CState).sliceWrappers "a").isSome = true ∧
    addConfig ⟨8, 32, [("a", 4)], [("a", ⟨32, 0, 4, false⟩)], [], [],
      none⟩ "a" 4 = .error .alreadyRegistered :=
  ⟨by decide,
    C9_duplicate_declare.1 ⟨8, 32, [("a", 4)], [("a", ⟨32, 0, 4, false⟩)],
      [], [], none⟩ "a" 4 (by decide)⟩

/-- C10: declaring a field never validates its width against
`config_data_width`: for every fresh name and every width, including widths
greater than `config_data_width`, `add_config` succeeds and records the field
in the cache; the width violation surfaces only when finalization runs. -/
theorem C10_no_width_check_at_declare :
    ∀ (aw dw : Nat) (l : List (String × Nat)) (st : CState),
      addConfigs (initState aw dw) l = .ok st →
      ∀ (name : String) (w : Nat), lookupW st.sliceWrappers name = none →
        ∃ st', addConfig st name w = .ok st' ∧
          st'.registerCache = st.registerCache ++ [(name, w)] ∧
          (dw < w → ∃ e, setupConfig st' = .error e) := by
  intro aw dw l st hadd name w hfresh
  refine ⟨_, addConfig_fresh hfresh w, rfl, ?_⟩
  intro hw
  have hadd' : addConfigs (initState aw dw) (l ++ [(name, w)]) =
      .ok { st with
        registerCache := st.registerCache ++ [(name, w)]
        sliceWrappers := st.sliceWrappers ++
          [(name, ⟨st.configDataWidth, 0, w, false⟩)] } := by
    rw [addConfigs_append]
    simp only [hadd, addConfigs, addConfig_fresh hfresh w]
  exact setupConfig_error_of_wide hadd' ⟨(name, w), by simp, hw⟩

/-- C10 witness: the general statement applied to the fresh name x with width
40 on a data width of 32. -/
theorem C10_no_width_check_at_declare_witness :
    lookupW (initState 8 32).sliceWrappers "x" = none ∧
    ∃ st', addConfig (initState 8 32) "x" 40 = .ok st' ∧
      st'.registerCache = (initState 8 32).registerCache ++ [("x", 40)] ∧
      (32 < 40 → ∃ e, setupConfig st' = .error e) :=
  ⟨rfl, C10_no_width_check_at_declare 8 32 [] (initState 8 32) rfl "x" 40 rfl⟩

/-- C5: whenever some declared field is wider than `config_data_width`,
finalization fails (the width is not checked at declaration, see C10, and the
failure is the IndexError on an empty working set when the too-wide field
would open a bin, or the width assertion when its bin is closed); no field is
ever split: on success every declared field occurs as exactly one member entry
across all bins; in particular the single field x:40 with
`config_data_width = 32` fails, with the IndexError. -/
theorem C5_field_too_wide :
    (∀ (aw dw : Nat) (l : List (String × Nat)) (st : CState),
      addConfigs (initState aw dw) l = .ok st →
      (∃ p ∈ l, dw < p.2) →
      ∃ e, setupConfig st = .error e) ∧
    (∀ (aw dw : Nat) (l : List (String × Nat)) (st st' : CState),
      addConfigs (initState aw dw) l = .ok st →
      setupConfig st = .ok st' →
      ∀ p ∈ l, ((membersJoin st'.registers).map Prod.fst).count p.1 = 1) ∧
    (addConfigs (initState 8 32) [("x", 40)]).bind setupConfig =
      .error .indexError := by
  refine ⟨?_, ?_, by decide⟩
  · intro aw dw l st hadd hwide
    exact setupConfig_error_of_wide hadd hwide
  · intro aw dw l st st' hadd hsetup p hp
    exact ((finalized_coverage hadd hsetup).2 p hp).1

/-- C5 witness: the general statement applied to the single declaration x:40
with data width 32. -/
theorem C5_field_too_wide_witness :
    (∃ p ∈ [(("x" : String), 40)], 32 < p.2) ∧
    ∃ e, setupConfig ⟨8, 32, [("x", 40)], [("x", ⟨32, 0, 40, false⟩)], [], [],
      none⟩ = .error e :=
  ⟨⟨("x", 40), by decide, by decide⟩,
    C5_field_too_wide.1 8 32 [("x", 40)]
      ⟨8, 32, [("x", 40)], [("x", ⟨32, 0, 40, false⟩)], [], [], none⟩
      (by decide) ⟨("x", 40), by decide, by decide⟩⟩

/-- C3: in every finalized layout, each bin's member ranges [lo, hi) chain
contiguously from 0 (each `lo` equals the previous `hi`), are pairwise
disjoint, and cover exactly [0, bin.width); and every declared field lies in
exactly one bin and has exactly one address-map entry, whose range has exactly
the declared width. -/
theorem C3_partition_coverage :
    ∀ (aw dw : Nat) (l : List (String × Nat)) (st st' : CState),
      addConfigs (initState aw dw) l = .ok st →
      setupConfig st = .ok st' →
      (∀ b ∈ st'.registers,
        chainB 0 b.members = true ∧
        lastHi b.members = b.width ∧
        b.members.Pairwise (fun p q => p.2.2 ≤ q.2.1) ∧
        (∀ x, x < b.width ↔ ∃ m ∈ b.members, m.2.1 ≤ x ∧ x < m.2.2)) ∧
      (∀ p ∈ l,
        st'.registers.countP
          (fun b => decide (p.1 ∈ b.members.map Prod.fst)) = 1 ∧
        (st'.registerMap.map Prod.fst).count p.1 = 1 ∧
        ∃ idx lo hi, lookupW st'.registerMap p.1 = some (idx, lo, hi) ∧
          hi = lo + p.2 ∧ hi - lo = p.2) := by
  intro aw dw l st st' hadd hsetup
  obtain ⟨hnd, hregs, hmap, _, _, _, hwl, _, _⟩ := setupConfig_char hadd hsetup
  obtain ⟨hnames, hcov⟩ := finalized_coverage hadd hsetup
  have hjnd : ((membersJoin st'.registers).map Prod.fst).Nodup := by
    rw [hnames]
    exact sortNames_nodup hnd
  constructor
  · intro b hb
    have hb' : b ∈ specPackLoop dw (sortedFieldsOf l) 0 [] [] := by
      rw [hregs] at hb
      exact hb
    have hgood := specPackLoop_bins_good dw (sortedFieldsOf l) 0 [] []
      (sortedFieldsOf_widths hnd hwl) rfl rfl (Nat.zero_le dw)
      (by intro b' hb'; simp at hb') b hb'
    refine ⟨hgood.1, hgood.2.1, chainB_pairwise _ 0 hgood.1, ?_⟩
    intro x
    have hcover := chainB_cover b.members 0 x hgood.1 (Nat.zero_le x)
    have hlh : ((b.members.getLast?.map fun m => m.2.2).getD 0) = b.width :=
      hgood.2.1
    rw [hlh] at hcover
    exact hcover
  · intro p hp
    obtain ⟨hcount, lo, hmem⟩ := hcov p hp
    refine ⟨countP_bins_one p.1 st'.registers hcount, ?_, ?_⟩
    · rw [hmap, binsMap_keys]
      exact hcount
    · obtain ⟨idx, hidx⟩ := binsMap_mem_of_join hmem
      refine ⟨idx, lo, lo + p.2, ?_, rfl, by omega⟩
      rw [hmap]
      refine lookupW_of_mem_nodup ?_ hidx
      rw [binsMap_keys]
      exact hjnd

/-- C3 witness: the general statement applied to the finalized layout of a:5,
b:5 on an 8/8 bus. -/
theorem C3_partition_coverage_witness :
    (∀ b ∈ (⟨8, 8, [("a", 5), ("b", 5)],
        [("a", ⟨5, 0, 5, true⟩), ("b", ⟨5, 0, 5, true⟩)],
        [⟨0, 5, [("a", 0, 5)]⟩, ⟨1, 5, [("b", 0, 5)]⟩],
        [("a", 0, 0, 5), ("b", 1, 0, 5)],
        some (.mux 1 [.zextO (.regO 0 5) 8, .zextO (.regO 1 5) 8])⟩ :
          CState).registers,
      chainB 0 b.members = true ∧
      lastHi b.members = b.width ∧
      b.members.Pairwise (fun p q => p.2.2 ≤ q.2.1) ∧
      (∀ x, x < b.width ↔ ∃ m ∈ b.members, m.2.1 ≤ x ∧ x < m.2.2)) ∧
    (∀ p ∈ [(("a" : String), 5), ("b", 5)],
      (⟨8, 8, [("a", 5), ("b", 5)],
        [("a", ⟨5, 0, 5, true⟩), ("b", ⟨5, 0, 5, true⟩)],
        [⟨0, 5, [("a", 0, 5)]⟩, ⟨1, 5, [("b", 0, 5)]⟩],
        [("a", 0, 0, 5), ("b", 1, 0, 5)],
        some (.mux 1 [.zextO (.regO 0 5) 8, .zextO (.regO 1 5) 8])⟩ :
          CState).registers.countP
        (fun b => decide (p.1 ∈ b.members.map Prod.fst)) = 1 ∧
      ((⟨8, 8, [("a", 5), ("b", 5)],
        [("a", ⟨5, 0, 5, true⟩), ("b", ⟨5, 0, 5, true⟩)],
        [⟨0, 5, [("a", 0, 5)]⟩, ⟨1, 5, [("b", 0, 5)]⟩],
        [("a", 0, 0, 5), ("b", 1, 0, 5)],
        some (.mux 1 [.zextO (.regO 0 5) 8, .zextO (.regO 1 5) 8])⟩ :
          CState).registerMap.map Prod.fst).count p.1 = 1 ∧
      ∃ idx lo hi, lookupW (⟨8, 8, [("a", 5), ("b", 5)],
        [("a", ⟨5, 0, 5, true⟩), ("b", ⟨5, 0, 5, true⟩)],
        [⟨0, 5, [("a", 0, 5)]⟩, ⟨1, 5, [("b", 0, 5)]⟩],
        [("a", 0, 0, 5), ("b", 1, 0, 5)],
        some (.mux 1 [.zextO (.regO 0 5) 8, .zextO (.regO 1 5) 8])⟩ :
          CState).registerMap p.1 = some (idx, lo, hi) ∧
        hi = lo + p.2 ∧ hi - lo = p.2) :=
  C3_partition_coverage 8 8 [("a", 5), ("b", 5)]
    ⟨8, 8, [("a", 5), ("b", 5)],
      [("a", ⟨8, 0, 5, false⟩), ("b", ⟨8, 0, 5, false⟩)], [], [], none⟩
    ⟨8, 8, [("a", 5), ("b", 5)],
      [("a", ⟨5, 0, 5, true⟩), ("b", ⟨5, 0, 5, true⟩)],
      [⟨0, 5, [("a", 0, 5)]⟩, ⟨1, 5, [("b", 0, 5)]⟩],
      [("a", 0, 0, 5), ("b", 1, 0, 5)],
      some (.mux 1 [.zextO (.regO 0 5) 8, .zextO (.regO 1 5) 8])⟩
    (by decide) (by decide)

/-- C6: in every finalized layout, with N bins: N = 0 leaves
`read_config_data` unconnected; N = 1 connects the single bin's output
directly, zero-extended to `config_data_width` when narrower (`zextPort` is
the identity at equal widths); N > 1 builds a selector keyed by the low
ceil(log2 N) bits of the read address over the N independently zero-extended
bin outputs. -/
theorem C6_readback_topology :
    ∀ (st st' : CState), setupConfig st = .ok st' →
      (st'.registers = [] → st'.readbackPlan = some .unconnected) ∧
      (∀ r, st'.registers = [r] → st'.readbackPlan =
        some (.direct (zextPort (.regO r.index r.width) r.width
          st.configDataWidth))) ∧
      (1 < st'.registers.length → st'.readbackPlan =
        some (.mux (Nat.clog 2 st'.registers.length)
          (st'.registers.map fun r =>
            zextPort (.regO r.index r.width) r.width st.configDataWidth))) := by
  intro st st' hsetup
  rw [setupConfig] at hsetup
  rcases hp : packLoop st (sortNames (st.registerCache.map Prod.fst)) 0 []
    with e | st₁
  · simp only [hp] at hsetup
    exact absurd hsetup (by simp)
  · simp only [hp] at hsetup
    rcases hr : setupReadback st₁.registers st₁.configAddrWidth
      st₁.configDataWidth with e | plan
    · simp only [hr] at hsetup
      exact absurd hsetup (by simp)
    · simp only [hr] at hsetup
      obtain rfl : ({ st₁ with readbackPlan := some plan } : CState) = st' :=
        Except.ok.inj hsetup
      obtain ⟨_, hdw, _⟩ := packLoop_preserves _ _ _ _ _ hp
      refine ⟨?_, ?_, ?_⟩
      · intro hnil
        have he := (setupReadback_char st₁.registers st₁.configAddrWidth
          st₁.configDataWidth).1 hnil
        rw [hr] at he
        obtain rfl := Except.ok.inj he
        rfl
      · intro r hone
        have he := (setupReadback_char st₁.registers st₁.configAddrWidth
          st₁.configDataWidth).2.1 r hone
        rw [hr] at he
        obtain rfl := Except.ok.inj he
        show some (ReadbackPlan.direct
          (zextPort (.regO r.index r.width) r.width st₁.configDataWidth)) = _
        rw [hdw]
      · intro hlen
        have hlen' : 1 < st₁.registers.length := hlen
        by_cases hsel : muxSelBits st₁.registers.length ≤ st₁.configAddrWidth
        · have he := (setupReadback_char st₁.registers st₁.configAddrWidth
            st₁.configDataWidth).2.2.1 hlen' hsel
          rw [hr] at he
          obtain rfl := Except.ok.inj he
          show some (ReadbackPlan.mux (muxSelBits st₁.registers.length)
            (st₁.registers.map fun r =>
              zextPort (.regO r.index r.width) r.width st₁.configDataWidth)) = _
          rw [hdw, muxSelBits_eq_clog]
        · have he := (setupReadback_char st₁.registers st₁.configAddrWidth
            st₁.configDataWidth).2.2.2 hlen' (by omega)
          rw [hr] at he
          exact absurd he (by simp)

/-- C6 witness: the general statement applied to the two-bin layout of a:5,
b:5 on an 8/8 bus. -/
theorem C6_readback_topology_witness :
    1 < (⟨8, 8, [("a", 5), ("b", 5)],
      [("a", ⟨5, 0, 5, true⟩), ("b", ⟨5, 0, 5, true⟩)],
      [⟨0, 5, [("a", 0, 5)]⟩, ⟨1, 5, [("b", 0, 5)]⟩],
      [("a", 0, 0, 5), ("b", 1, 0, 5)],
      some (.mux 1 [.zextO (.regO 0 5) 8, .zextO (.regO 1 5) 8])⟩ :
        CState).registers.length ∧
    (⟨8, 8, [("a", 5), ("b", 5)],
      [("a", ⟨5, 0, 5, true⟩), ("b", ⟨5, 0, 5, true⟩)],
      [⟨0, 5, [("a", 0, 5)]⟩, ⟨1, 5, [("b", 0, 5)]⟩],
      [("a", 0, 0, 5), ("b", 1, 0, 5)],
      some (.mux 1 [.zextO (.regO 0 5) 8, .zextO (.regO 1 5) 8])⟩ :
        CState).readbackPlan =
      some (.mux (Nat.clog 2 (⟨8, 8, [("a", 5), ("b", 5)],
        [("a", ⟨5, 0, 5, true⟩), ("b", ⟨5, 0, 5, true⟩)],
        [⟨0, 5, [("a", 0, 5)]⟩, ⟨1, 5, [("b", 0, 5)]⟩],
        [("a", 0, 0, 5), ("b", 1, 0, 5)],
        some (.mux 1 [.zextO (.regO 0 5) 8, .zextO (.regO 1 5) 8])⟩ :
          CState).registers.length)
        ((⟨8, 8, [("a", 5), ("b", 5)],
          [("a", ⟨5, 0, 5, true⟩), ("b", ⟨5, 0, 5, true⟩)],
          [⟨0, 5, [("a", 0, 5)]⟩, ⟨1, 5, [("b", 0, 5)]⟩],
          [("a", 0, 0, 5), ("b", 1, 0, 5)],
          some (.mux 1 [.zextO (.regO 0 5) 8, .zextO (.regO 1 5) 8])⟩ :
            CState).registers.map fun r =>
          zextPort (.regO r.index r.width) r.width 8)) :=
  ⟨by decide,
    (C6_readback_topology
      ⟨8, 8, [("a", 5), ("b", 5)],
        [("a", ⟨8, 0, 5, false⟩), ("b", ⟨8, 0, 5, false⟩)], [], [], none⟩
      ⟨8, 8, [("a", 5), ("b", 5)],
        [("a", ⟨5, 0, 5, true⟩), ("b", ⟨5, 0, 5, true⟩)],
        [⟨0, 5, [("a", 0, 5)]⟩, ⟨1, 5, [("b", 0, 5)]⟩],
        [("a", 0, 0, 5), ("b", 1, 0, 5)],
        some (.mux 1 [.zextO (.regO 0 5) 8, .zextO (.regO 1 5) 8])⟩
      (by decide)).2.2 (by decide)⟩

/-- C7: the read-back synthesizer fails with the internal-consistency error
(the spec-modelled wire-width mismatch) exactly when the bin count exceeds
`2 ^ config_addr_width`; otherwise, for more than one bin, it succeeds with a
selector whose width is ceil(log2 N) = `Nat.clog 2 N`, and the address-bit
slice `config_addr[:sel_bits]` has exactly that width
(`min sel_bits config_addr_width = sel_bits`). -/
theorem C7_selector_consistency :
    ∀ (regs : List RegBin) (aw dw : Nat),
      (2 ^ aw < regs.length →
        setupReadback regs aw dw = .error .wireWidthMismatch) ∧
      (1 < regs.length → regs.length ≤ 2 ^ aw →
        setupReadback regs aw dw = .ok
          (.mux (muxSelBits regs.length)
            (regs.map fun r => zextPort (.regO r.index r.width) r.width dw)) ∧
        muxSelBits regs.length = Nat.clog 2 regs.length ∧
        min (muxSelBits regs.length) aw = muxSelBits regs.length) := by
  intro regs aw dw
  constructor
  · intro hover
    have h1 : 1 < regs.length := by
      have := Nat.one_le_two_pow (n := aw)
      omega
    have hsel : aw < muxSelBits regs.length := by
      by_contra hle
      have := (muxSelBits_le_iff regs.length aw).mp (by omega)
      omega
    exact (setupReadback_char regs aw dw).2.2.2 h1 hsel
  · intro h1 hle
    have hsel : muxSelBits regs.length ≤ aw := (muxSelBits_le_iff _ _).mpr hle
    exact ⟨(setupReadback_char regs aw dw).2.2.1 h1 hsel,
      muxSelBits_eq_clog _, min_eq_left hsel⟩

/-- C7 witness: the failing arm at address width 0 with two bins, and the
succeeding arm for the same two bins at address width 8. -/
theorem C7_selector_consistency_witness :
    (2 ^ 0 < ([⟨0, 6, []⟩, ⟨1, 8, []⟩] : List RegBin).length ∧
      setupReadback [⟨0, 6, []⟩, ⟨1, 8, []⟩] 0 8 =
        .error .wireWidthMismatch) ∧
    (setupReadback [⟨0, 6, []⟩, ⟨1, 8, []⟩] 8 8 = .ok
      (.mux (muxSelBits ([⟨0, 6, []⟩, ⟨1, 8, []⟩] : List RegBin).length)
        (([⟨0, 6, []⟩, ⟨1, 8, []⟩] : List RegBin).map fun r =>
          zextPort (.regO r.index r.width) r.width 8)) ∧
      muxSelBits ([⟨0, 6, []⟩, ⟨1, 8, []⟩] : List RegBin).length =
        Nat.clog 2 ([⟨0, 6, []⟩, ⟨1, 8, []⟩] : List RegBin).length ∧
      min (muxSelBits ([⟨0, 6, []⟩, ⟨1, 8, []⟩] : List RegBin).length) 8 =
        muxSelBits ([⟨0, 6, []⟩, ⟨1, 8, []⟩] : List RegBin).length) :=
  ⟨⟨by decide, (C7_selector_consistency [⟨0, 6, []⟩, ⟨1, 8, []⟩] 0 8).1
      (by decide)⟩,
    (C7_selector_consistency [⟨0, 6, []⟩, ⟨1, 8, []⟩] 8 8).2 (by decide)
      (by decide)⟩

/-- C8 counterexample: on an allocator with zero declared fields, a second
finalize does not fail at all: both calls succeed, so the claim that invoking
finalize a second time always fails deterministically is false as stated
(`_setup_config` keeps no finalized flag; with no fields it re-runs as a
silent no-op). -/
theorem C8_counterexample_empty_refinalize :
    (setupConfig (initState 8 32)).bind setupConfig =
      .ok ⟨8, 32, [], [], [], [], some .unconnected⟩ := by
  decide

/-- C8 as amended: on every allocator with at least one declared field a
second finalize fails deterministically (re-adding the already-present port I
of the first field processed, under the spec-modelled `addPortI`), and every
lookup before the first finalize fails deterministically with a key error on
the empty address map; with zero declared fields a second finalize is a
silent no-op (see the counterexample). -/
theorem C8_amended_lifecycle :
    (∀ (aw dw : Nat) (l : List (String × Nat)) (st st₁ : CState),
      l ≠ [] →
      addConfigs (initState aw dw) l = .ok st →
      setupConfig st = .ok st₁ →
      ∃ e, setupConfig st₁ = .error e) ∧
    (∀ (aw dw : Nat) (l : List (String × Nat)) (st : CState),
      addConfigs (initState aw dw) l = .ok st →
      ∀ (name : String) (value : Nat),
        getRegInfo st name = .error .keyError ∧
        getRegIdx st name = .error .keyError ∧
        getConfigData st name value = .error .keyError) := by
  constructor
  · intro aw dw l st st₁ hne hadd hsetup
    obtain ⟨_, _, _, hcache, _, _, _, hports, _⟩ := setupConfig_char hadd hsetup
    have hnames_ne : sortNames (st₁.registerCache.map Prod.fst) ≠ [] := by
      rw [hcache]
      intro h
      exact hne (List.map_eq_nil_iff.mp (sortNames_eq_nil h))
    obtain ⟨e, he⟩ := packLoop_allPorts_error
      (sortNames (st₁.registerCache.map Prod.fst)) st₁ 0 []
      (by
        intro n sw hn hsw
        rcases hn with hn | hn
        · simp at hn
        · have hn' : n ∈ l.map Prod.fst := by
            rw [hcache] at hn
            exact sortNames_mem.mp hn
          obtain ⟨sw', hsw', hI⟩ := hports n hn'
          rw [hsw'] at hsw
          obtain rfl := Option.some.inj hsw
          exact hI)
      (Or.inr hnames_ne)
    refine ⟨e, ?_⟩
    rw [setupConfig]
    simp only [he]
  · intro aw dw l st hadd name value
    obtain ⟨_, _, _, _, _, hmap, _, _, _⟩ := addConfigs_ok_char hadd
    have hmap' : st.registerMap = [] := by
      simpa [initState] using hmap
    refine ⟨?_, ?_, ?_⟩
    · simp [getRegInfo, hmap', lookupW]
    · simp [getRegIdx, hmap', lookupW]
    · simp [getConfigData, hmap', lookupW]

/-- C8 witness: the amended statement applied to the single declaration a:4
on an 8/8 bus (the second finalize fails), and to a lookup made before the
first finalize. -/
theorem C8_amended_lifecycle_witness :
    (∃ e, setupConfig ⟨8, 8, [("a", 4)], [("a", ⟨4, 0, 4, true⟩)],
      [⟨0, 4, [("a", 0, 4)]⟩], [("a", 0, 0, 4)],
      some (.direct (.zextO (.regO 0 4) 8))⟩ = .error e) ∧
    (getRegInfo ⟨8, 8, [("a", 4)], [("a", ⟨8, 0, 4, false⟩)], [], [],
        none⟩ "a" = .error .keyError ∧
      getRegIdx ⟨8, 8, [("a", 4)], [("a", ⟨8, 0, 4, false⟩)], [], [],
        none⟩ "a" = .error .keyError ∧
      getConfigData ⟨8, 8, [("a", 4)], [("a", ⟨8, 0, 4, false⟩)], [], [],
        none⟩ "a" 3 = .error .keyError) :=
  ⟨C8_amended_lifecycle.1 8 8 [("a", 4)]
      ⟨8, 8, [("a", 4)], [("a", ⟨8, 0, 4, false⟩)], [], [], none⟩
      ⟨8, 8, [("a", 4)], [("a", ⟨4, 0, 4, true⟩)],
        [⟨0, 4, [("a", 0, 4)]⟩], [("a", 0, 0, 4)],
        some (.direct (.zextO (.regO 0 4) 8))⟩
      (by decide) (by decide) (by decide),
    C8_amended_lifecycle.2 8 8 [("a", 4)]
      ⟨8, 8, [("a", 4)], [("a", ⟨8, 0, 4, false⟩)], [], [], none⟩
      (by decide) "a" 3⟩
